import Mathlib

/-!
Verification of the vertex-fusion/unfusion engine and the submesh builder of
the GMD converter toolkit.

The vertex-fusion engine (components 4.1-4.5 of the design document:
`fuse_adjacent_vertices`, `detect_fully_fused_triangles`, `decide_on_unfusions`,
`solve_unfusion` and the orchestrator `vertex_fusion`) is shipped outside the
sources available here (only its test suite is present), so those components
are modelled from the specification text.  The submesh builder
(`SubmeshBuilder.add_triangle_vertices` and friends) is embedded directly from
`blender/export/mesh_exporter/builders.py`.

Modelling conventions:
* float32 coordinates are modelled as exact fixed-point integers, one unit
  being the spec's fusion epsilon (on the order of 1e-6); attribute channels
  are integer vectors compared with exact equality, as the spec demands;
* Python dicts keyed in insertion order are modelled as association lists
  that preserve first-insertion key order;
* the `unfuse_verts_with : OriginalVertexRef -> Set OriginalVertexRef`
  mapping is modelled as the list of directed pairs it contains;
* the orchestrator loop is modelled with explicit fuel, returning `none`
  when the fuel runs out before the Done state is reached.
-/

namespace VF

/-- Modelled from the spec: a vertex record has a 3D position and zero or more
additional fixed-arity attribute channels; positions are fixed-point integers
(one unit = the fusion epsilon), attributes are compared bit-for-bit. -/
structure Vertex where
  pos : ℤ × ℤ × ℤ
  attrs : List ℤ
deriving DecidableEq, Repr

/-- Modelled from the spec: a VertexBuffer is an ordered sequence of vertex
records, identified by its ordinal position in the input list. -/
abbrev VertexBuffer := List Vertex

/-- Modelled from the spec: an IndexBuffer is an ordered sequence of vertex
indices, conceptually grouped in consecutive triples (triangles). -/
abbrev IndexBuffer := List Nat

/-- Modelled from the spec: OriginalVertexRef is the pair
(buffer_id, original_index). -/
abbrev Ref := Nat × Nat

/-- Modelled from the spec: a triangle's three original in-buffer indices. -/
abbrev Tri := Nat × Nat × Nat

/-- Lexicographic strict order on OriginalVertexRef (buffer id first). -/
def refLtP (a b : Ref) : Prop := a.1 < b.1 ∨ (a.1 = b.1 ∧ a.2 < b.2)

/-- Lexicographic order on OriginalVertexRef (buffer id first). -/
def refLeP (a b : Ref) : Prop := a.1 < b.1 ∨ (a.1 = b.1 ∧ a.2 ≤ b.2)

instance : DecidableRel refLtP := fun a b =>
  inferInstanceAs (Decidable (a.1 < b.1 ∨ (a.1 = b.1 ∧ a.2 < b.2)))

instance : DecidableRel refLeP := fun a b =>
  inferInstanceAs (Decidable (a.1 < b.1 ∨ (a.1 = b.1 ∧ a.2 ≤ b.2)))

/-- Modelled from the spec: the fixed fusion epsilon, in fixed-point units. -/
def eps : ℤ := 1

/-- Modelled from the spec: position components differ by no more than
epsilon, componentwise. -/
def close (p q : ℤ × ℤ × ℤ) : Bool :=
  decide (|p.1 - q.1| ≤ eps) && decide (|p.2.1 - q.2.1| ≤ eps) &&
    decide (|p.2.2 - q.2.2| ≤ eps)

/-- Modelled from the spec: two vertices are candidates for fusion exactly when
all non-position attribute fields are exactly equal and the position
components differ by no more than epsilon. -/
def canFuse (v w : Vertex) : Bool :=
  decide (v.attrs = w.attrs) && close v.pos w.pos

/-- Total number of OriginalVertexRefs across all buffers (flat id count). -/
def total (vbs : List VertexBuffer) : Nat := (vbs.map List.length).sum

/-- Converts a flat vertex id back to (buffer_id, original_index), given the
buffer lengths. -/
def refOfAux : List Nat → Nat → Ref
  | [], k => (0, k)
  | len :: rest, k =>
    if k < len then (0, k)
    else
      let r := refOfAux rest (k - len)
      (r.1 + 1, r.2)

/-- Converts a flat vertex id to its OriginalVertexRef. -/
def refOf (lens : List Nat) (k : Nat) : Ref := refOfAux lens k

/-- Placeholder vertex used for out-of-range lookups. -/
def defaultVertex : Vertex := ⟨(0, 0, 0), []⟩

/-- Vertex record looked up by flat id. -/
def vtxAt (vbs : List VertexBuffer) (k : Nat) : Vertex :=
  let r := refOf (vbs.map List.length) k
  (vbs.getD r.1 []).getD r.2 defaultVertex

/-- All index pairs (i, j) with i < j < n: the candidate pairs the adjacency
fuser compares (the spec's spatial bucketing only prunes pairs that can never
match, so the resulting partition is that of the full pairwise comparison). -/
def allPairs (n : Nat) : List (Nat × Nat) :=
  (List.range n).flatMap (fun j => (List.range j).map (fun i => (i, j)))

/-- Label of flat id k in a disjoint-set label array (ids beyond the array are
their own label). -/
def labelAt (labels : List Nat) (k : Nat) : Nat := labels.getD k k

/-- Modelled from the spec: a union-find merge, relabelling everything that
carries b's label with a's label. -/
def mergeLabels (labels : List Nat) (a b : Nat) : List Nat :=
  labels.map (fun l => if l = labelAt labels b then labelAt labels a else l)

/-- Folds the union-find merge over a list of candidate pairs. -/
def fuseFold (vbs : List VertexBuffer) (ps : List (Nat × Nat)) (labels : List Nat) :
    List Nat :=
  ps.foldl
    (fun labels p =>
      if canFuse (vtxAt vbs p.1) (vtxAt vbs p.2) then mergeLabels labels p.1 p.2
      else labels)
    labels

/-- Modelled from the spec: the adjacency fuser's union-find pass, merging
every candidate pair of vertices that matches (`canFuse`). -/
def fuseLabels (vbs : List VertexBuffer) : List Nat :=
  fuseFold vbs (allPairs (total vbs)) (List.range (total vbs))

/-- Modelled from the spec: one fused group per disjoint-set root, members
ordered by flat id ascending, groups ordered by their lowest (first-occurring)
member. -/
def groupsOfLabels (labels : List Nat) (n : Nat) : List (List Nat) :=
  (List.range n).filterMap (fun i =>
    if (List.range i).all (fun j => labelAt labels j != labelAt labels i) then
      some ((List.range n).filter (fun j => labelAt labels j == labelAt labels i))
    else none)

/-- Modelled from the spec: the FusionIndex, i.e. fused_idx_to_buf_idx,
buf_idx_to_fused_idx and is_fused. -/
structure FusionIndex where
  fusedToBuf : List (List Ref)
  bufToFused : List (List Nat)
  isFused : List (List Bool)
deriving DecidableEq, Repr

/-- Modelled from the spec: buf_idx_to_fused_idx maps each original index to
the fused-id of the group containing it. -/
def mkBufToFused (lens : List Nat) (groups : List (List Ref)) : List (List Nat) :=
  (List.range lens.length).map (fun b =>
    (List.range (lens.getD b 0)).map (fun i =>
      groups.findIdx (fun g => decide ((b, i) ∈ g))))

/-- Modelled from the spec: is_fused is true for every member of a group
except the first (the representative keeps is_fused = false). -/
def mkIsFused (lens : List Nat) (groups : List (List Ref)) : List (List Bool) :=
  (List.range lens.length).map (fun b =>
    (List.range (lens.getD b 0)).map (fun i =>
      match groups.find? (fun g => decide ((b, i) ∈ g)) with
      | some g => decide (g.head? ≠ some (b, i))
      | none => false))

/-- Rebuilds a full FusionIndex from a group list, exactly as in spec 4.1. -/
def mkFusionIndex (lens : List Nat) (groups : List (List Ref)) : FusionIndex :=
  ⟨groups, mkBufToFused lens groups, mkIsFused lens groups⟩

/-- Modelled from the spec (4.1 Adjacency Fuser): partitions all vertices of
all buffers into fused groups of attribute-equal, epsilon-close vertices via
pairwise union-find merging, and builds the initial FusionIndex. -/
def fuse_adjacent_vertices (vbs : List VertexBuffer) : FusionIndex :=
  let lens := vbs.map List.length
  let labels := fuseLabels vbs
  let flatGroups := groupsOfLabels labels (total vbs)
  mkFusionIndex lens (flatGroups.map (fun g => g.map (refOf lens)))

/-- Consecutive index triples of an index buffer (incomplete tail ignored). -/
def triples : List Nat → List Tri
  | a :: b :: c :: rest => (a, b, c) :: triples rest
  | _ => []

/-- All triangles of all buffers, tagged with their buffer id, in buffer order
then in-buffer order. -/
def allTriangles (ibs : List IndexBuffer) : List (Nat × Tri) :=
  (List.range ibs.length).flatMap (fun b =>
    (triples (ibs.getD b [])).map (fun t => (b, t)))

/-- Fused id of original index i of buffer b, via buf_idx_to_fused_idx. -/
def fidB (b2f : List (List Nat)) (b i : Nat) : Nat := (b2f.getD b []).getD i 0

/-- Modelled from the spec: the canonical collision key of a triangle, i.e.
its three fused-ids sorted ascending (independent of winding order). -/
def triKey (b2f : List (List Nat)) (bt : Nat × Tri) : List Nat :=
  List.insertionSort (· ≤ ·)
    [fidB b2f bt.1 bt.2.1, fidB b2f bt.1 bt.2.2.1, fidB b2f bt.1 bt.2.2.2]

/-- Modelled from the spec: the CollisionGroup map, keyed by canonical sorted
fused-id triples, in first-encounter key order. -/
abbrev CollisionMap := List (List Nat × List (Nat × Tri))

/-- Appends a triangle to the list of its canonical key, keeping keys in
first-encounter order. -/
def addToKey : CollisionMap → List Nat → Nat × Tri → CollisionMap
  | [], k, t => [(k, [t])]
  | (k', ts) :: rest, k, t =>
    if k' = k then (k', ts ++ [t]) :: rest else (k', ts) :: addToKey rest k t

/-- Modelled from the spec (4.2 Fully-Fused-Triangle Detector): groups all
triangles by their canonical sorted fused-id triple, then keeps only keys with
2 or more colliding triangles. -/
def detect_fully_fused_triangles (ibs : List IndexBuffer) (f2b : List (List Ref))
    (b2f : List (List Nat)) : CollisionMap :=
  let _ := f2b
  let m := (allTriangles ibs).foldl (fun m bt => addToKey m (triKey b2f bt) bt) []
  m.filter (fun kts => 2 ≤ kts.2.length)

/-- Fused id of an OriginalVertexRef, looked up in fused_idx_to_buf_idx. -/
def fidRef (f2b : List (List Ref)) (r : Ref) : Nat :=
  f2b.findIdx (fun g => decide (r ∈ g))

/-- Modelled from the spec: a triangle's three OriginalVertexRefs aligned in
the canonical order of 4.2, i.e. sorted by fused-id. -/
def alignedOriginals (f2b : List (List Ref)) (bt : Nat × Tri) : List Ref :=
  let origs : List Ref := [(bt.1, bt.2.1), (bt.1, bt.2.2.1), (bt.1, bt.2.2.2)]
  (List.insertionSort (fun x y : Nat × Ref => x.1 ≤ y.1)
      (origs.map (fun r => (fidRef f2b r, r)))).map Prod.snd

/-- All unordered pairs of a list, each as (earlier, later) in list order. -/
def listPairs : List α → List (α × α)
  | [] => []
  | x :: rest => rest.map (fun y => (x, y)) ++ listPairs rest

/-- First position where two aligned original-vertex triples differ, as the
pair of differing originals. -/
def firstDiff : List Ref → List Ref → Option (Ref × Ref)
  | a :: as, b :: bs => if a = b then firstDiff as bs else some (a, b)
  | _, _ => none

/-- Modelled from the spec: the mutual must-not-fuse constraint recorded for
one pair of colliding triangles (none when the triples are identical). -/
def pairConstraints (f2b : List (List Ref)) (t1 t2 : Nat × Tri) : List (Ref × Ref) :=
  match firstDiff (alignedOriginals f2b t1) (alignedOriginals f2b t2) with
  | some (a, b) => [(a, b), (b, a)]
  | none => []

/-- Modelled from the spec (4.3 Unfusion Decider): for every unordered pair of
triangles of every collision group, record the mutual constraint of its first
differing canonical position.  The symmetric unfuse_verts_with mapping is
represented as the list of directed pairs it contains. -/
def decide_on_unfusions (ibs : List IndexBuffer) (f2b : List (List Ref))
    (cm : CollisionMap) : List (Ref × Ref) :=
  let _ := ibs
  cm.flatMap (fun kts => (listPairs kts.2).flatMap (fun p => pairConstraints f2b p.1 p.2))

/-- Two refs conflict when either direction is in unfuse_verts_with. -/
def conflictB (cons : List (Ref × Ref)) (a b : Ref) : Bool :=
  decide ((a, b) ∈ cons) || decide ((b, a) ∈ cons)

/-- Modelled from the spec: one greedy-coloring round; scans the unassigned
members in original order and adds each to the current subgroup when it
conflicts with no member already placed there. -/
def greedySplit (cons : List (Ref × Ref)) : List Ref → List Ref → List Ref × List Ref
  | sub, [] => (sub, [])
  | sub, y :: rest =>
    if sub.all (fun z => !conflictB cons y z) then greedySplit cons (sub ++ [y]) rest
    else
      let p := greedySplit cons sub rest
      (p.1, y :: p.2)

/-- Modelled from the spec: repeatedly pick the first unassigned member, start
a new subgroup with it and run a greedy round; the fuel (one unit per round
suffices, since each round assigns at least its starting member) only makes
the recursion structural. -/
def colorRounds (cons : List (Ref × Ref)) : Nat → List Ref → List (List Ref)
  | _, [] => []
  | 0, _ :: _ => []
  | fuel + 1, x :: rest =>
    let p := greedySplit cons [x] rest
    p.1 :: colorRounds cons fuel p.2

/-- Modelled from the spec: greedy graph-coloring of one old fused group into
conflict-free subgroups. -/
def colorGroup (cons : List (Ref × Ref)) (g : List Ref) : List (List Ref) :=
  colorRounds cons g.length g

/-- Lowest member of a group (groups are kept in ascending member order). -/
def headRef (g : List Ref) : Ref := g.headD (0, 0)

/-- Group order: by lowest (buffer_id, original_index) member. -/
def groupLe (g1 g2 : List Ref) : Prop := refLeP (headRef g1) (headRef g2)

instance : DecidableRel groupLe := fun g1 g2 =>
  inferInstanceAs (Decidable (refLeP (headRef g1) (headRef g2)))

instance : IsTotal Ref refLeP where
  total a b := by
    unfold refLeP
    omega

instance : IsTrans Ref refLeP where
  trans a b c hab hbc := by
    unfold refLeP at *
    omega

instance : IsTotal (List Ref) groupLe where
  total g1 g2 := IsTotal.total (r := refLeP) (headRef g1) (headRef g2)

instance : IsTrans (List Ref) groupLe where
  trans _ _ _ h12 h23 := IsTrans.trans (r := refLeP) _ _ _ h12 h23

/-- Modelled from the spec (4.4 Unfusion Solver): splits every old fused group
into conflict-free subgroups by greedy coloring, orders the new groups by
lowest member and rebuilds the FusionIndex exactly as in 4.1. -/
def solve_unfusion (vbs : List VertexBuffer) (oldF2b : List (List Ref))
    (cons : List (Ref × Ref)) : FusionIndex :=
  let newGroups := List.insertionSort groupLe (oldF2b.flatMap (colorGroup cons))
  mkFusionIndex (vbs.map List.length) newGroups

/-- Modelled from the spec (4.5 Orchestrator): the Detecting -> Deciding ->
Solving loop; Done (returning the current FusionIndex) exactly when the
detector result is empty.  Fuel-indexed; `none` means the fuel ran out before
reaching Done. -/
def fusionLoop (ibs : List IndexBuffer) (vbs : List VertexBuffer) :
    Nat → FusionIndex → Option FusionIndex
  | 0, _ => none
  | fuel + 1, idx =>
    if detect_fully_fused_triangles ibs idx.fusedToBuf idx.bufToFused = [] then some idx
    else
      fusionLoop ibs vbs fuel
        (solve_unfusion vbs idx.fusedToBuf
          (decide_on_unfusions ibs idx.fusedToBuf
            (detect_fully_fused_triangles ibs idx.fusedToBuf idx.bufToFused)))

/-- Modelled from the spec: the top-level orchestrator; runs the adjacency
fuser once, then the detect/decide/solve loop to a fixed point. -/
def vertex_fusion (fuel : Nat) (ibs : List IndexBuffer) (vbs : List VertexBuffer) :
    Option FusionIndex :=
  fusionLoop ibs vbs fuel (fuse_adjacent_vertices vbs)

/-- Adjacency step on flat vertex ids: both ids are in range and the two
vertex records match for fusion. -/
def fuseStep (vbs : List VertexBuffer) (i j : Nat) : Prop :=
  i < total vbs ∧ j < total vbs ∧ canFuse (vtxAt vbs i) (vtxAt vbs j) = true

/-- Two flat ids are fusion-connected when a chain of matching vertex pairs
joins them. -/
def Reach (vbs : List VertexBuffer) : Nat → Nat → Prop :=
  Relation.ReflTransGen (fuseStep vbs)

end VF

namespace Builders

/-- State of `SubmeshBuilder` (builders.py): the accumulated vertex buffer
(each appended vertex recorded by the (blender vertex id, per-loop data) key
that generated it), the triangle list, the key -> vertex-index lookup dict and
the per-blender-vertex list of per-loop data, both in insertion order.
`P` is the type of per-loop vertex data, compared by structural equality. -/
structure SubmeshBuilder (P : Type) where
  vertices : List (Nat × P)
  triangles : List (Nat × Nat × Nat)
  blender_vid_to_this_vid : List ((Nat × P) × Nat)
  per_loop_data_for_blender_vid : List (Nat × List P)
deriving DecidableEq

/-- Dict lookup in blender_vid_to_this_vid. -/
def lookupVid [DecidableEq P] (m : List ((Nat × P) × Nat)) (k : Nat × P) : Option Nat :=
  (m.find? (fun e => decide (e.1 = k))).map Prod.snd

/-- Appends per-loop data to the defaultdict-of-lists keyed by blender vid. -/
def addPerLoop [DecidableEq P] : List (Nat × List P) → Nat → P → List (Nat × List P)
  | [], vid, pld => [(vid, [pld])]
  | (v, ps) :: rest, vid, pld =>
    if v = vid then (v, ps ++ [pld]) :: rest else (v, ps) :: addPerLoop rest vid pld

/-- SubmeshBuilder.add_anonymous_vertex: appends one generated vertex and
returns its index; raises (modelled as `none`) past the vertex cap. -/
def add_anonymous_vertex (b : SubmeshBuilder P) (k : Nat × P) :
    Option (SubmeshBuilder P × Nat) :=
  let idx := b.vertices.length
  if idx > 65535 then none
  else some ({ b with vertices := b.vertices ++ [k] }, idx)

/-- Local helper of add_triangle_vertices: reuses the index of an
already-present (vid, per-loop data) key, otherwise adds the vertex and
registers it in both lookup structures. -/
def add_if_not_present [DecidableEq P] (b : SubmeshBuilder P) (k : Nat × P) :
    Option (SubmeshBuilder P × Nat) :=
  match lookupVid b.blender_vid_to_this_vid k with
  | some i => some (b, i)
  | none =>
    (add_anonymous_vertex b k).map (fun bi =>
      ({ bi.1 with
          blender_vid_to_this_vid := bi.1.blender_vid_to_this_vid ++ [(k, bi.2)],
          per_loop_data_for_blender_vid :=
            addPerLoop bi.1.per_loop_data_for_blender_vid k.1 k.2 },
        bi.2))

/-- SubmeshBuilder.add_triangle: appends one triangle. -/
def add_triangle (b : SubmeshBuilder P) (t : Nat × Nat × Nat) : SubmeshBuilder P :=
  { b with triangles := b.triangles ++ [t] }

/-- Number of occurrences, among a triangle's three corner keys, whose key is
not yet present in the lookup dict (this is what the source's capacity check
counts). -/
def occMissing [DecidableEq P] (b : SubmeshBuilder P)
    (ks : (Nat × P) × (Nat × P) × (Nat × P)) : Nat :=
  ([ks.1, ks.2.1, ks.2.2].filter
    (fun k => (lookupVid b.blender_vid_to_this_vid k).isNone)).length

/-- Number of distinct keys, among a triangle's three corner keys, that are
not yet present in the lookup dict (the number of vertices actually added on
success). -/
def distinctMissing [DecidableEq P] (b : SubmeshBuilder P)
    (ks : (Nat × P) × (Nat × P) × (Nat × P)) : Nat :=
  (if (lookupVid b.blender_vid_to_this_vid ks.1).isNone then 1 else 0) +
    (if (lookupVid b.blender_vid_to_this_vid ks.2.1).isNone ∧ ks.2.1 ≠ ks.1 then 1 else 0) +
    (if (lookupVid b.blender_vid_to_this_vid ks.2.2).isNone ∧ ks.2.2 ≠ ks.1 ∧ ks.2.2 ≠ ks.2.1
      then 1 else 0)

/-- Shared tail of add_triangle_vertices after the capacity check: add the
three (possibly shared) vertices and one triangle referencing them. -/
def addTriangleGo [DecidableEq P] (b : SubmeshBuilder P)
    (ks : (Nat × P) × (Nat × P) × (Nat × P)) : Option (SubmeshBuilder P × Bool) := do
  let p1 ← add_if_not_present b ks.1
  let p2 ← add_if_not_present p1.1 ks.2.1
  let p3 ← add_if_not_present p2.1 ks.2.2
  some (add_triangle p3.1 (p1.2, p2.2, p3.2), true)

/-- SubmeshBuilder.add_triangle_vertices: tries to add the three vertices of a
triangle plus the triangle itself; when fewer than (65535 - 3) vertices are
present no capacity check is made, otherwise the occurrences of
not-yet-present keys are counted and the call returns False untouched if they
would push the vertex count over 65535. -/
def add_triangle_vertices [DecidableEq P] (b : SubmeshBuilder P)
    (ks : (Nat × P) × (Nat × P) × (Nat × P)) : Option (SubmeshBuilder P × Bool) :=
  let overall : List (Nat × P) := [ks.1, ks.2.1, ks.2.2]
  if b.vertices.length > 65535 - 3 then
    let newIdxs := overall.filter (fun k => (lookupVid b.blender_vid_to_this_vid k).isNone)
    if b.vertices.length + newIdxs.length > 65535 then some (b, false)
    else addTriangleGo b ks
  else addTriangleGo b ks

end Builders

namespace VF

/-! Concrete inputs, mirroring the repository's test scenarios (positions in
fixed-point units, scaled so that distinct test positions are farther apart
than the epsilon). -/

/-- Hexagon with duplicated center vertices C and D (test scenario). -/
def hexVB : VertexBuffer :=
  [⟨(0, 10, 0), []⟩, ⟨(10, 0, 0), []⟩, ⟨(0, 0, 0), []⟩,
   ⟨(0, 0, 0), []⟩, ⟨(-10, 0, 0), []⟩, ⟨(0, -10, 0), []⟩]

/-- Triangles ABC, BCF, ADE, DEF of the hexagon scenario. -/
def hexIB : IndexBuffer := [0, 1, 2, 1, 2, 5, 0, 3, 4, 3, 4, 5]

/-- Triangle ABC plus triangle A'B'C where A/A' and B/B' coincide. -/
def abcVB : VertexBuffer :=
  [⟨(10, 10, 0), []⟩, ⟨(0, 0, 0), []⟩, ⟨(20, 0, 0), []⟩,
   ⟨(10, 10, 0), []⟩, ⟨(0, 0, 0), []⟩]

/-- Index buffer of the ABC / A'B'C scenario. -/
def abcIB : IndexBuffer := [0, 1, 2, 2, 3, 4]

/-- Four coincident vertices in two layers (complex-unfusion scenario). -/
def quadVB : VertexBuffer := [⟨(0, 0, 0), []⟩, ⟨(0, 0, 0), []⟩, ⟨(0, 0, 0), []⟩, ⟨(0, 0, 0), []⟩]

/-- Must-not-fuse constraints of the complex-unfusion scenario. -/
def quadCons : List (Ref × Ref) :=
  [((0, 0), (0, 1)), ((0, 1), (0, 0)), ((0, 2), (0, 3)), ((0, 3), (0, 2))]

/-- Three distinct vertices. -/
def dupVB : VertexBuffer := [⟨(0, 0, 0), []⟩, ⟨(10, 0, 0), []⟩, ⟨(0, 10, 0), []⟩]

/-- The same vertex triple referenced by two triangles (a rotated exact
duplicate). -/
def dupIB : IndexBuffer := [0, 1, 2, 1, 2, 0]

/-- Three collinear vertices, consecutive ones epsilon-apart, the outer pair
two epsilons apart. -/
def chainVB : VertexBuffer := [⟨(0, 0, 0), []⟩, ⟨(1, 0, 0), []⟩, ⟨(2, 0, 0), []⟩]

end VF

namespace Builders

/-- Builder holding 65534 vertices whose lookup dict knows only the key
(1, ()). -/
def bigB : SubmeshBuilder Unit :=
  ⟨List.replicate 65534 (0, ()), [], [((1, ()), 0)], []⟩

/-- Freshly constructed builder. -/
def emptyB : SubmeshBuilder Unit := ⟨[], [], [], []⟩

end Builders

/-! # Theorems -/

namespace VF

theorem detect_mem_filter {ibs : List IndexBuffer} {f2b : List (List Ref)}
    {b2f : List (List Nat)} {kts : List Nat × List (Nat × Tri)}
    (h : kts ∈ detect_fully_fused_triangles ibs f2b b2f) :
    2 ≤ kts.2.length := by
  unfold detect_fully_fused_triangles at h
  have h2 := (List.mem_filter.mp h).2
  exact of_decide_eq_true h2

/-- C3: every key kept in the output of detect_fully_fused_triangles has a
triangle list with 2 or more entries; collision groups of size 1 are dropped
(regardless of how many members the individual fused groups have). -/
theorem detect_fully_fused_triangles_min_two (ibs : List IndexBuffer)
    (f2b : List (List Ref)) (b2f : List (List Nat)) (k : List Nat)
    (ts : List (Nat × Tri))
    (h : (k, ts) ∈ detect_fully_fused_triangles ibs f2b b2f) :
    2 ≤ ts.length :=
  detect_mem_filter h

/-- C3 witness: in the ABC / A'B'C scenario the detector keeps exactly one
collision group, and the theorem applies to it. -/
theorem detect_fully_fused_triangles_min_two_witness :
    ([0, 1, 2], [(0, ((0, 1, 2) : Tri)), (0, ((2, 3, 4) : Tri))]) ∈
        detect_fully_fused_triangles [abcIB] (fuse_adjacent_vertices [abcVB]).fusedToBuf
          (fuse_adjacent_vertices [abcVB]).bufToFused ∧
      2 ≤ [(0, ((0, 1, 2) : Tri)), (0, ((2, 3, 4) : Tri))].length :=
  ⟨by decide,
    detect_fully_fused_triangles_min_two [abcIB] (fuse_adjacent_vertices [abcVB]).fusedToBuf
      (fuse_adjacent_vertices [abcVB]).bufToFused [0, 1, 2]
      [(0, ((0, 1, 2) : Tri)), (0, ((2, 3, 4) : Tri))] (by decide)⟩

theorem fusionLoop_detect_empty {ibs : List IndexBuffer} {vbs : List VertexBuffer} :
    ∀ (fuel : Nat) (idx0 idx : FusionIndex), fusionLoop ibs vbs fuel idx0 = some idx →
      detect_fully_fused_triangles ibs idx.fusedToBuf idx.bufToFused = [] := by
  intro fuel
  induction fuel with
  | zero => intro idx0 idx h; exact absurd h (by simp [fusionLoop])
  | succ n ih =>
    intro idx0 idx h
    unfold fusionLoop at h
    by_cases hd : detect_fully_fused_triangles ibs idx0.fusedToBuf idx0.bufToFused = []
    · rw [if_pos hd] at h
      cases h
      exact hd
    · rw [if_neg hd] at h
      exact ih _ _ h

/-- C1: whenever the orchestrator vertex_fusion returns a FusionIndex, running
detect_fully_fused_triangles on it yields an empty collision map; the loop
only reaches Done (and returns) when the detector result is empty. -/
theorem vertex_fusion_detect_empty (fuel : Nat) (ibs : List IndexBuffer)
    (vbs : List VertexBuffer) (idx : FusionIndex)
    (h : vertex_fusion fuel ibs vbs = some idx) :
    detect_fully_fused_triangles ibs idx.fusedToBuf idx.bufToFused = [] :=
  fusionLoop_detect_empty fuel (fuse_adjacent_vertices vbs) idx h

/-- C1 witness: on the hexagon scenario the orchestrator returns after the
initial fusion, and the detector output on the result is empty. -/
theorem vertex_fusion_detect_empty_witness :
    detect_fully_fused_triangles [hexIB] (fuse_adjacent_vertices [hexVB]).fusedToBuf
      (fuse_adjacent_vertices [hexVB]).bufToFused = [] :=
  vertex_fusion_detect_empty 2 [hexIB] [hexVB] (fuse_adjacent_vertices [hexVB]) (by decide)

theorem pairConstraints_mem_swap {f2b : List (List Ref)} {t1 t2 : Nat × Tri}
    {x y : Ref} (h : (x, y) ∈ pairConstraints f2b t1 t2) :
    (y, x) ∈ pairConstraints f2b t1 t2 := by
  revert h
  unfold pairConstraints
  rcases firstDiff (alignedOriginals f2b t1) (alignedOriginals f2b t2) with _ | ⟨a, b⟩
  · intro h; simp at h
  · intro h
    rcases List.mem_pair.mp h with h1 | h1
    · cases h1; exact List.mem_pair.mpr (Or.inr rfl)
    · cases h1; exact List.mem_pair.mpr (Or.inl rfl)

theorem decide_on_unfusions_mem_swap {ibs : List IndexBuffer} {f2b : List (List Ref)}
    {cm : CollisionMap} {x y : Ref} (h : (x, y) ∈ decide_on_unfusions ibs f2b cm) :
    (y, x) ∈ decide_on_unfusions ibs f2b cm := by
  unfold decide_on_unfusions at *
  rcases List.mem_flatMap.mp h with ⟨kts, hkts, h2⟩
  rcases List.mem_flatMap.mp h2 with ⟨p, hp, h3⟩
  exact List.mem_flatMap.mpr ⟨kts, hkts,
    List.mem_flatMap.mpr ⟨p, hp, pairConstraints_mem_swap h3⟩⟩

/-- C8: the unfuse_verts_with relation returned by decide_on_unfusions is
symmetric: B is constrained against A exactly when A is constrained
against B. -/
theorem decide_on_unfusions_symm (ibs : List IndexBuffer) (f2b : List (List Ref))
    (cm : CollisionMap) (A B : Ref) :
    (A, B) ∈ decide_on_unfusions ibs f2b cm ↔ (B, A) ∈ decide_on_unfusions ibs f2b cm :=
  ⟨decide_on_unfusions_mem_swap, decide_on_unfusions_mem_swap⟩

end VF

namespace Builders

variable {P : Type} [DecidableEq P]

theorem lookupVid_append_self (m : List ((Nat × P) × Nat)) (k : Nat × P) (i : Nat)
    (h : lookupVid m k = none) : lookupVid (m ++ [(k, i)]) k = some i := by
  unfold lookupVid at *
  rw [List.find?_append]
  rcases hf : m.find? (fun e => decide (e.1 = k)) with _ | e
  · simp [hf]
  · rw [hf] at h; simp at h
  
theorem lookupVid_append_ne (m : List ((Nat × P) × Nat)) (k k' : Nat × P) (i : Nat)
    (h : k' ≠ k) : lookupVid (m ++ [(k, i)]) k' = lookupVid m k' := by
  unfold lookupVid
  rw [List.find?_append]
  rcases hf : m.find? (fun e => decide (e.1 = k')) with _ | e
  · simp [hf, List.find?, Ne.symm h]
  · simp [hf]

theorem add_if_not_present_spec (b : SubmeshBuilder P) (k : Nat × P)
    (hlen : b.vertices.length ≤ 65535) :
    ∃ b' i, add_if_not_present b k = some (b', i) ∧
      b'.vertices.length = b.vertices.length +
        (if (lookupVid b.blender_vid_to_this_vid k).isNone then 1 else 0) ∧
      b'.triangles = b.triangles ∧
      lookupVid b'.blender_vid_to_this_vid k = some i ∧
      (∀ k', lookupVid b'.blender_vid_to_this_vid k' =
        if k' = k ∧ lookupVid b.blender_vid_to_this_vid k = none then some i
        else lookupVid b.blender_vid_to_this_vid k') := by
  unfold add_if_not_present
  rcases hl : lookupVid b.blender_vid_to_this_vid k with _ | j
  · refine ⟨⟨b.vertices ++ [k], b.triangles,
        b.blender_vid_to_this_vid ++ [(k, b.vertices.length)],
        addPerLoop b.per_loop_data_for_blender_vid k.1 k.2⟩,
      b.vertices.length, ?_, ?_, ?_, ?_, ?_⟩
    · unfold add_anonymous_vertex
      rw [if_neg (by omega)]
      rfl
    · simp [hl]
    · rfl
    · exact lookupVid_append_self _ _ _ hl
    · intro k'
      by_cases hk : k' = k
      · subst hk
        simp only [hl, and_true, if_pos rfl]
        exact lookupVid_append_self _ _ _ hl
      · simp only [hk, false_and, if_neg (by tauto)]
        exact lookupVid_append_ne _ _ _ _ hk
  · refine ⟨b, j, rfl, by simp [hl], rfl, hl, ?_⟩
    intro k'
    by_cases hk : k' = k
    · subst hk; simp [hl]
    · simp [hk]

end Builders

namespace Builders

variable {P : Type} [DecidableEq P]

theorem lookupVid_persist {b b' : SubmeshBuilder P} {kk : Nat × P} {ik : Nat}
    (hfor : ∀ k', lookupVid b'.blender_vid_to_this_vid k' =
      if k' = kk ∧ lookupVid b.blender_vid_to_this_vid kk = none then some ik
      else lookupVid b.blender_vid_to_this_vid k')
    {k' : Nat × P} {j : Nat} (h : lookupVid b.blender_vid_to_this_vid k' = some j) :
    lookupVid b'.blender_vid_to_this_vid k' = some j := by
  rw [hfor k']
  by_cases hc : k' = kk ∧ lookupVid b.blender_vid_to_this_vid kk = none
  · rcases hc with ⟨rfl, hc2⟩
    rw [h] at hc2
    cases hc2
  · rw [if_neg hc]
    exact h

theorem occMissing_eq (b : SubmeshBuilder P) (ks : (Nat × P) × (Nat × P) × (Nat × P)) :
    occMissing b ks =
      (if (lookupVid b.blender_vid_to_this_vid ks.1).isNone then 1 else 0) +
        (if (lookupVid b.blender_vid_to_this_vid ks.2.1).isNone then 1 else 0) +
        (if (lookupVid b.blender_vid_to_this_vid ks.2.2).isNone then 1 else 0) := by
  unfold occMissing
  by_cases h1 : (lookupVid b.blender_vid_to_this_vid ks.1).isNone <;>
    by_cases h2 : (lookupVid b.blender_vid_to_this_vid ks.2.1).isNone <;>
      by_cases h3 : (lookupVid b.blender_vid_to_this_vid ks.2.2).isNone <;>
        simp [List.filter, h1, h2, h3]

theorem distinctMissing_le_occMissing (b : SubmeshBuilder P)
    (ks : (Nat × P) × (Nat × P) × (Nat × P)) : distinctMissing b ks ≤ occMissing b ks := by
  rw [occMissing_eq]
  unfold distinctMissing
  have h2 : (if (lookupVid b.blender_vid_to_this_vid ks.2.1).isNone ∧ ks.2.1 ≠ ks.1
        then 1 else 0) ≤
      (if (lookupVid b.blender_vid_to_this_vid ks.2.1).isNone then 1 else 0) := by
    split_ifs with hA hB
    · omega
    · exact absurd hA.1 hB
    · omega
    · omega
  have h3 : (if (lookupVid b.blender_vid_to_this_vid ks.2.2).isNone ∧ ks.2.2 ≠ ks.1 ∧
          ks.2.2 ≠ ks.2.1 then 1 else 0) ≤
      (if (lookupVid b.blender_vid_to_this_vid ks.2.2).isNone then 1 else 0) := by
    split_ifs with hA hB
    · omega
    · exact absurd hA.1 hB
    · omega
    · omega
  omega

theorem distinctMissing_le_three (b : SubmeshBuilder P)
    (ks : (Nat × P) × (Nat × P) × (Nat × P)) : distinctMissing b ks ≤ 3 := by
  unfold distinctMissing
  split_ifs <;> omega

theorem addTriangleGo_spec (b : SubmeshBuilder P)
    (ks : (Nat × P) × (Nat × P) × (Nat × P))
    (h : b.vertices.length + distinctMissing b ks ≤ 65535) :
    ∃ b' i1 i2 i3,
      addTriangleGo b ks = some (b', true) ∧
      b'.vertices.length = b.vertices.length + distinctMissing b ks ∧
      b'.vertices.length ≤ 65535 ∧
      b'.triangles = b.triangles ++ [(i1, i2, i3)] ∧
      lookupVid b'.blender_vid_to_this_vid ks.1 = some i1 ∧
      lookupVid b'.blender_vid_to_this_vid ks.2.1 = some i2 ∧
      lookupVid b'.blender_vid_to_this_vid ks.2.2 = some i3 ∧
      (∀ k j, lookupVid b.blender_vid_to_this_vid k = some j →
        lookupVid b'.blender_vid_to_this_vid k = some j) := by
  have hd : distinctMissing b ks =
      (if (lookupVid b.blender_vid_to_this_vid ks.1).isNone then 1 else 0) +
        (if (lookupVid b.blender_vid_to_this_vid ks.2.1).isNone ∧ ks.2.1 ≠ ks.1
          then 1 else 0) +
        (if (lookupVid b.blender_vid_to_this_vid ks.2.2).isNone ∧ ks.2.2 ≠ ks.1 ∧
          ks.2.2 ≠ ks.2.1 then 1 else 0) := rfl
  obtain ⟨b1, i1, he1, hlen1, htri1, hk1, hfor1⟩ :=
    add_if_not_present_spec b ks.1 (by omega)
  have hn2 : (lookupVid b1.blender_vid_to_this_vid ks.2.1).isNone =
      ((lookupVid b.blender_vid_to_this_vid ks.2.1).isNone && decide (ks.2.1 ≠ ks.1)) := by
    rw [hfor1 ks.2.1]
    by_cases hc : ks.2.1 = ks.1 ∧ lookupVid b.blender_vid_to_this_vid ks.1 = none
    · rcases hc with ⟨he, hno⟩
      simp [he, hno]
    · rw [if_neg hc]
      by_cases he : ks.2.1 = ks.1
      · rcases hl : lookupVid b.blender_vid_to_this_vid ks.2.1 with _ | j
        · exact absurd ⟨he, by rw [← he]; exact hl⟩ hc
        · simp [he]
      · simp [he]
  have hif2 : (if (lookupVid b1.blender_vid_to_this_vid ks.2.1).isNone then 1 else 0) =
      (if (lookupVid b.blender_vid_to_this_vid ks.2.1).isNone ∧ ks.2.1 ≠ ks.1
        then 1 else 0) := by
    rw [hn2]
    by_cases hA : (lookupVid b.blender_vid_to_this_vid ks.2.1).isNone <;>
      by_cases hB : ks.2.1 = ks.1 <;> simp [hA, hB]
  obtain ⟨b2, i2, he2, hlen2, htri2, hk2, hfor2⟩ :=
    add_if_not_present_spec b1 ks.2.1 (by omega)
  have hn3 : (lookupVid b2.blender_vid_to_this_vid ks.2.2).isNone =
      ((lookupVid b.blender_vid_to_this_vid ks.2.2).isNone && decide (ks.2.2 ≠ ks.1) &&
        decide (ks.2.2 ≠ ks.2.1)) := by
    rw [hfor2 ks.2.2]
    by_cases hc : ks.2.2 = ks.2.1 ∧ lookupVid b1.blender_vid_to_this_vid ks.2.1 = none
    · rcases hc with ⟨he, hno⟩
      simp [he, hno]
    · rw [if_neg hc]
      by_cases he : ks.2.2 = ks.2.1
      · rcases hl : lookupVid b1.blender_vid_to_this_vid ks.2.1 with _ | j
        · exact absurd ⟨he, hl⟩ hc
        · rw [he, hl]
          simp
      · rw [hfor1 ks.2.2]
        by_cases hc1 : ks.2.2 = ks.1 ∧ lookupVid b.blender_vid_to_this_vid ks.1 = none
        · rcases hc1 with ⟨he1x, hno1⟩
          simp [he1x, hno1]
        · rw [if_neg hc1]
          by_cases he1x : ks.2.2 = ks.1
          · rcases hl : lookupVid b.blender_vid_to_this_vid ks.2.2 with _ | j
            · exact absurd ⟨he1x, by rw [← he1x]; exact hl⟩ hc1
            · simp [he1x]
          · simp [he1x, he]
  have hif3 : (if (lookupVid b2.blender_vid_to_this_vid ks.2.2).isNone then 1 else 0) =
      (if (lookupVid b.blender_vid_to_this_vid ks.2.2).isNone ∧ ks.2.2 ≠ ks.1 ∧
        ks.2.2 ≠ ks.2.1 then 1 else 0) := by
    rw [hn3]
    by_cases hA : (lookupVid b.blender_vid_to_this_vid ks.2.2).isNone <;>
      by_cases hB : ks.2.2 = ks.1 <;> by_cases hC : ks.2.2 = ks.2.1 <;>
        simp [hA, hB, hC]
  obtain ⟨b3, i3, he3, hlen3, htri3, hk3, hfor3⟩ :=
    add_if_not_present_spec b2 ks.2.2 (by omega)
  refine ⟨add_triangle b3 (i1, i2, i3), i1, i2, i3, ?_, ?_, ?_, ?_, ?_, ?_, ?_, ?_⟩
  · simp only [addTriangleGo, Option.bind_eq_bind, he1, Option.some_bind, he2, he3]
  · show b3.vertices.length = _
    omega
  · show b3.vertices.length ≤ 65535
    omega
  · show b3.triangles ++ [(i1, i2, i3)] = _
    rw [htri3, htri2, htri1]
  · exact lookupVid_persist hfor3 (lookupVid_persist hfor2 hk1)
  · exact lookupVid_persist hfor3 hk2
  · exact hk3
  · intro k j hkj
    exact lookupVid_persist hfor3 (lookupVid_persist hfor2 (lookupVid_persist hfor1 hkj))

/-- C10 (amended): add_triangle_vertices is atomic with respect to the
65535-vertex capacity, but counts not-yet-present keys with multiplicity
across the triangle's three corners: when more than 65532 vertices are
present and the vertex count plus that occurrence count exceeds 65535, it
returns False and leaves the builder untouched; otherwise it adds each
distinct missing key exactly once (reusing existing indices for
already-present keys), appends exactly one triangle referencing the three
indices, stays within 65535 vertices, and returns True. -/
theorem add_triangle_vertices_atomic (b : SubmeshBuilder P)
    (ks : (Nat × P) × (Nat × P) × (Nat × P)) (hlen : b.vertices.length ≤ 65535) :
    (65535 - 3 < b.vertices.length ∧ 65535 < b.vertices.length + occMissing b ks →
      add_triangle_vertices b ks = some (b, false)) ∧
    (¬(65535 - 3 < b.vertices.length ∧ 65535 < b.vertices.length + occMissing b ks) →
      ∃ b' i1 i2 i3,
        add_triangle_vertices b ks = some (b', true) ∧
        b'.vertices.length = b.vertices.length + distinctMissing b ks ∧
        b'.vertices.length ≤ 65535 ∧
        b'.triangles = b.triangles ++ [(i1, i2, i3)] ∧
        lookupVid b'.blender_vid_to_this_vid ks.1 = some i1 ∧
        lookupVid b'.blender_vid_to_this_vid ks.2.1 = some i2 ∧
        lookupVid b'.blender_vid_to_this_vid ks.2.2 = some i3 ∧
        (∀ k j, lookupVid b.blender_vid_to_this_vid k = some j →
          lookupVid b'.blender_vid_to_this_vid k = some j)) := by
  constructor
  · intro hcond
    unfold add_triangle_vertices
    rw [if_pos hcond.1, if_pos (by exact hcond.2)]
  · intro hcond
    have hgo : b.vertices.length + distinctMissing b ks ≤ 65535 := by
      by_cases hsmall : 65535 - 3 < b.vertices.length
      · have hocc : ¬(65535 < b.vertices.length + occMissing b ks) := fun hx =>
          hcond ⟨hsmall, hx⟩
        have := distinctMissing_le_occMissing b ks
        omega
      · have := distinctMissing_le_three b ks
        omega
    obtain ⟨b', i1, i2, i3, hgoeq, rest⟩ := addTriangleGo_spec b ks hgo
    refine ⟨b', i1, i2, i3, ?_, rest⟩
    unfold add_triangle_vertices
    by_cases hsmall : 65535 - 3 < b.vertices.length
    · have hocc : ¬(65535 < b.vertices.length + occMissing b ks) := fun hx =>
        hcond ⟨hsmall, hx⟩
      rw [if_pos hsmall, if_neg (by exact hocc)]
      exact hgoeq
    · rw [if_neg hsmall]
      exact hgoeq

end Builders

namespace Builders

/-- C10 counterexample: bigB holds 65534 vertices and its dict already knows
key (1, ()); the triangle ((0,()), (0,()), (1,())) has exactly one distinct
not-yet-present key, so adding it would reach exactly 65535 vertices - not
exceeding the cap - yet add_triangle_vertices returns False (untouched),
because the capacity check counts the missing key once per corner. -/
theorem add_triangle_vertices_duplicate_key_rejected :
    add_triangle_vertices bigB ((0, ()), (0, ()), (1, ())) = some (bigB, false) ∧
      bigB.vertices.length + distinctMissing bigB ((0, ()), (0, ()), (1, ())) = 65535 := by
  have hlen : bigB.vertices.length = 65534 := by
    show (List.replicate 65534 ((0 : Nat), ())).length = 65534
    rw [List.length_replicate]
  have hl0 : lookupVid bigB.blender_vid_to_this_vid ((0 : Nat), ()) = none := by
    show lookupVid [(((1 : Nat), ()), 0)] ((0 : Nat), ()) = none
    decide
  have hl1 : lookupVid bigB.blender_vid_to_this_vid ((1 : Nat), ()) = some 0 := by
    show lookupVid [(((1 : Nat), ()), 0)] ((1 : Nat), ()) = some 0
    decide
  constructor
  · unfold add_triangle_vertices
    rw [hlen]
    simp only [hl0, hl1, List.filter, Option.isNone_none, Option.isNone_some,
      List.length_cons, List.length_nil]
    norm_num
  · have hdm : distinctMissing bigB ((0, ()), (0, ()), (1, ())) = 1 := by
      simp [distinctMissing, hl0, hl1]
    omega

/-- C10 witness: a fresh builder accepts a triangle of three distinct new
keys, reaching 3 vertices and 1 triangle. -/
theorem add_triangle_vertices_atomic_witness :
    emptyB.vertices.length ≤ 65535 ∧
      ¬(65535 - 3 < emptyB.vertices.length ∧
        65535 < emptyB.vertices.length + occMissing emptyB ((0, ()), (1, ()), (2, ()))) ∧
      ∃ b' i1 i2 i3,
        add_triangle_vertices emptyB ((0, ()), (1, ()), (2, ())) = some (b', true) ∧
        b'.vertices.length = emptyB.vertices.length +
          distinctMissing emptyB ((0, ()), (1, ()), (2, ())) ∧
        b'.vertices.length ≤ 65535 ∧
        b'.triangles = emptyB.triangles ++ [(i1, i2, i3)] ∧
        lookupVid b'.blender_vid_to_this_vid ((0, ()), (1, ()), (2, ())).1 = some i1 ∧
        lookupVid b'.blender_vid_to_this_vid ((0, ()), (1, ()), (2, ())).2.1 = some i2 ∧
        lookupVid b'.blender_vid_to_this_vid ((0, ()), (1, ()), (2, ())).2.2 = some i3 ∧
        (∀ k j, lookupVid emptyB.blender_vid_to_this_vid k = some j →
          lookupVid b'.blender_vid_to_this_vid k = some j) :=
  ⟨by decide, by decide,
    (add_triangle_vertices_atomic emptyB ((0, ()), (1, ()), (2, ())) (by decide)).2 (by decide)⟩

end Builders

namespace VF

theorem conflictB_comm (cons : List (Ref × Ref)) (a b : Ref) :
    conflictB cons a b = conflictB cons b a := by
  unfold conflictB
  exact Bool.or_comm _ _

theorem greedySplit_append_perm (cons : List (Ref × Ref)) :
    ∀ (rest sub : List Ref),
      ((greedySplit cons sub rest).1 ++ (greedySplit cons sub rest).2).Perm (sub ++ rest) := by
  intro rest
  induction rest with
  | nil => intro sub; simp [greedySplit]
  | cons y rest ih =>
    intro sub
    unfold greedySplit
    by_cases hc : sub.all (fun z => !conflictB cons y z)
    · rw [if_pos hc]
      have h := ih (sub ++ [y])
      rw [List.append_assoc] at h
      simpa using h
    · rw [if_neg hc]
      show ((greedySplit cons sub rest).1 ++ y :: (greedySplit cons sub rest).2).Perm
        (sub ++ y :: rest)
      exact List.perm_middle.trans (((ih sub).cons y).trans List.perm_middle.symm)

theorem greedySplit_fst_eq (cons : List (Ref × Ref)) :
    ∀ (rest sub : List Ref), ∃ picks, (greedySplit cons sub rest).1 = sub ++ picks ∧
      picks.Sublist rest := by
  intro rest
  induction rest with
  | nil => intro sub; exact ⟨[], by simp [greedySplit], List.Sublist.refl _⟩
  | cons y rest ih =>
    intro sub
    unfold greedySplit
    by_cases hc : sub.all (fun z => !conflictB cons y z)
    · rw [if_pos hc]
      obtain ⟨picks, hp, hs⟩ := ih (sub ++ [y])
      exact ⟨y :: picks, by simpa using hp, hs.cons₂ y⟩
    · rw [if_neg hc]
      obtain ⟨picks, hp, hs⟩ := ih sub
      exact ⟨picks, hp, hs.cons y⟩

theorem greedySplit_snd_sublist (cons : List (Ref × Ref)) :
    ∀ (rest sub : List Ref), (greedySplit cons sub rest).2.Sublist rest := by
  intro rest
  induction rest with
  | nil => intro sub; simp [greedySplit]
  | cons y rest ih =>
    intro sub
    unfold greedySplit
    by_cases hc : sub.all (fun z => !conflictB cons y z)
    · rw [if_pos hc]
      exact (ih (sub ++ [y])).cons y
    · rw [if_neg hc]
      show (y :: (greedySplit cons sub rest).2).Sublist (y :: rest)
      exact (ih sub).cons₂ y

theorem greedySplit_fst_pairwise (cons : List (Ref × Ref)) :
    ∀ (rest sub : List Ref),
      sub.Pairwise (fun a b : Ref => conflictB cons a b = false) →
      (greedySplit cons sub rest).1.Pairwise (fun a b : Ref => conflictB cons a b = false) := by
  intro rest
  induction rest with
  | nil => intro sub h; simpa [greedySplit] using h
  | cons y rest ih =>
    intro sub h
    unfold greedySplit
    by_cases hc : sub.all (fun z => !conflictB cons y z)
    · rw [if_pos hc]
      refine ih (sub ++ [y]) ?_
      rw [List.pairwise_append]
      refine ⟨h, List.pairwise_singleton _ _, ?_⟩
      intro a ha b hb
      rw [List.mem_singleton] at hb
      subst hb
      have := List.all_eq_true.mp hc a ha
      rw [conflictB_comm]
      simpa using this
    · rw [if_neg hc]
      exact ih sub h

theorem colorRounds_flatten_perm (cons : List (Ref × Ref)) :
    ∀ (fuel : Nat) (g : List Ref), g.length ≤ fuel →
      ((colorRounds cons fuel g).flatten).Perm g := by
  intro fuel
  induction fuel with
  | zero =>
    intro g hg
    rw [List.length_eq_zero.mp (Nat.le_zero.mp hg)]
    simp [colorRounds]
  | succ n ih =>
    intro g hg
    match g with
    | [] => simp [colorRounds]
    | x :: rest =>
      show ((greedySplit cons [x] rest).1 ::
        colorRounds cons n (greedySplit cons [x] rest).2).flatten.Perm (x :: rest)
      rw [List.flatten_cons]
      have hlen : (greedySplit cons [x] rest).2.length ≤ n := by
        have := (greedySplit_snd_sublist cons rest [x]).length_le
        simp at hg
        omega
      exact (List.Perm.append_left _ (ih _ hlen)).trans
        (by simpa using greedySplit_append_perm cons rest [x])

theorem colorRounds_mem_sublist (cons : List (Ref × Ref)) :
    ∀ (fuel : Nat) (g sub : List Ref), sub ∈ colorRounds cons fuel g → sub.Sublist g := by
  intro fuel
  induction fuel with
  | zero =>
    intro g sub h
    match g with
    | [] => simp [colorRounds] at h
    | x :: rest => simp [colorRounds] at h
  | succ n ih =>
    intro g sub h
    match g with
    | [] => simp [colorRounds] at h
    | x :: rest =>
      have h' : sub = (greedySplit cons [x] rest).1 ∨
          sub ∈ colorRounds cons n (greedySplit cons [x] rest).2 := by
        simpa using List.mem_cons.mp h
      rcases h' with rfl | h'
      · obtain ⟨picks, hp, hs⟩ := greedySplit_fst_eq cons rest [x]
        rw [hp]
        show (x :: picks).Sublist (x :: rest)
        exact hs.cons₂ x
      · exact ((ih _ _ h').trans (greedySplit_snd_sublist cons rest [x])).cons x

theorem colorRounds_mem_pairwise (cons : List (Ref × Ref)) :
    ∀ (fuel : Nat) (g sub : List Ref), sub ∈ colorRounds cons fuel g →
      sub.Pairwise (fun a b : Ref => conflictB cons a b = false) := by
  intro fuel
  induction fuel with
  | zero =>
    intro g sub h
    match g with
    | [] => simp [colorRounds] at h
    | x :: rest => simp [colorRounds] at h
  | succ n ih =>
    intro g sub h
    match g with
    | [] => simp [colorRounds] at h
    | x :: rest =>
      have h' : sub = (greedySplit cons [x] rest).1 ∨
          sub ∈ colorRounds cons n (greedySplit cons [x] rest).2 := by
        simpa using List.mem_cons.mp h
      rcases h' with rfl | h'
      · exact greedySplit_fst_pairwise cons rest [x] (List.pairwise_singleton _ _)
      · exact ih _ _ h'

theorem colorRounds_mem_ne_nil (cons : List (Ref × Ref)) :
    ∀ (fuel : Nat) (g sub : List Ref), sub ∈ colorRounds cons fuel g → sub ≠ [] := by
  intro fuel
  induction fuel with
  | zero =>
    intro g sub h
    match g with
    | [] => simp [colorRounds] at h
    | x :: rest => simp [colorRounds] at h
  | succ n ih =>
    intro g sub h
    match g with
    | [] => simp [colorRounds] at h
    | x :: rest =>
      have h' : sub = (greedySplit cons [x] rest).1 ∨
          sub ∈ colorRounds cons n (greedySplit cons [x] rest).2 := by
        simpa using List.mem_cons.mp h
      rcases h' with rfl | h'
      · obtain ⟨picks, hp, _⟩ := greedySplit_fst_eq cons rest [x]
        rw [hp]
        simp
      · exact ih _ _ h'

end VF

namespace VF

theorem colorGroup_mem_sublist {cons : List (Ref × Ref)} {g sub : List Ref}
    (h : sub ∈ colorGroup cons g) : sub.Sublist g :=
  colorRounds_mem_sublist cons g.length g sub h

theorem colorGroup_mem_pairwise {cons : List (Ref × Ref)} {g sub : List Ref}
    (h : sub ∈ colorGroup cons g) :
    sub.Pairwise (fun a b : Ref => conflictB cons a b = false) :=
  colorRounds_mem_pairwise cons g.length g sub h

theorem colorGroup_mem_ne_nil {cons : List (Ref × Ref)} {g sub : List Ref}
    (h : sub ∈ colorGroup cons g) : sub ≠ [] :=
  colorRounds_mem_ne_nil cons g.length g sub h

theorem colorGroup_flatten_perm (cons : List (Ref × Ref)) (g : List Ref) :
    ((colorGroup cons g).flatten).Perm g :=
  colorRounds_flatten_perm cons g.length g le_rfl

theorem flatMap_colorGroup_flatten_perm (cons : List (Ref × Ref)) :
    ∀ old : List (List Ref), ((old.flatMap (colorGroup cons)).flatten).Perm old.flatten := by
  intro old
  induction old with
  | nil => simp
  | cons g rest ih =>
    rw [List.flatMap_cons, List.flatten_append, List.flatten_cons]
    exact (colorGroup_flatten_perm cons g).append ih

theorem solve_unfusion_mem {vbs : List VertexBuffer} {old : List (List Ref)}
    {cons : List (Ref × Ref)} {g' : List Ref} :
    g' ∈ (solve_unfusion vbs old cons).fusedToBuf ↔ ∃ g ∈ old, g' ∈ colorGroup cons g := by
  show g' ∈ List.insertionSort groupLe (old.flatMap (colorGroup cons)) ↔ _
  rw [List.mem_insertionSort, List.mem_flatMap]

theorem solve_unfusion_flatten_perm (vbs : List VertexBuffer) (old : List (List Ref))
    (cons : List (Ref × Ref)) :
    (((solve_unfusion vbs old cons).fusedToBuf).flatten).Perm old.flatten := by
  show ((List.insertionSort groupLe (old.flatMap (colorGroup cons))).flatten).Perm _
  exact ((List.perm_insertionSort groupLe _).flatten).trans
    (flatMap_colorGroup_flatten_perm cons old)

/-- C5: every group produced by solve_unfusion refines the old partition (it
is a nonempty subset of exactly one old group, given disjoint old groups),
and every recorded constraint is honoured: two distinct constrained vertices
never share a new group. -/
theorem solve_unfusion_refines_and_satisfies (vbs : List VertexBuffer)
    (old : List (List Ref)) (cons : List (Ref × Ref))
    (hirr : ∀ p ∈ cons, p.1 ≠ p.2)
    (hdisj : old.Pairwise (fun g1 g2 => ∀ r ∈ g1, r ∉ g2)) :
    (∀ g' ∈ (solve_unfusion vbs old cons).fusedToBuf,
      g' ≠ [] ∧ ∃ g, g ∈ old ∧ g' ⊆ g ∧ ∀ g2 ∈ old, g' ⊆ g2 → g2 = g) ∧
    (∀ A B, (A, B) ∈ cons → ∀ g' ∈ (solve_unfusion vbs old cons).fusedToBuf,
      ¬(A ∈ g' ∧ B ∈ g')) := by
  constructor
  · intro g' hg'
    obtain ⟨g, hg, hcg⟩ := solve_unfusion_mem.mp hg'
    have hne : g' ≠ [] := colorGroup_mem_ne_nil hcg
    have hsub : g' ⊆ g := (colorGroup_mem_sublist hcg).subset
    refine ⟨hne, g, hg, hsub, ?_⟩
    intro g2 hg2 hsub2
    by_contra hne2
    obtain ⟨r, hr⟩ := List.exists_mem_of_ne_nil g' hne
    have hsymm : Symmetric (fun g1 g2 : List Ref => ∀ r ∈ g1, r ∉ g2) := by
      intro a b hab s hs hsa
      exact hab s hsa hs
    have hdis := hdisj.forall hsymm hg2 hg hne2
    exact hdis r (hsub2 hr) (hsub hr)
  · rintro A B hAB g' hg' ⟨hA, hB⟩
    obtain ⟨g, hg, hcg⟩ := solve_unfusion_mem.mp hg'
    have hpw := colorGroup_mem_pairwise hcg
    have hsymm : Symmetric (fun a b : Ref => conflictB cons a b = false) := by
      intro a b h
      rw [conflictB_comm]
      exact h
    have hfalse := hpw.forall hsymm hA hB (hirr (A, B) hAB)
    unfold conflictB at hfalse
    simp [hAB] at hfalse

/-- C5 witness: in the two-layer four-vertex scenario, the solver splits the
single old group into two groups; the group containing A = (0,0) honours the
constraint separating it from its duplicate (0,1). -/
theorem solve_unfusion_refines_and_satisfies_witness :
    ([((0 : Nat), (0 : Nat)), (0, 2)] : List Ref) ∈
        (solve_unfusion [quadVB] [[(0, 0), (0, 1), (0, 2), (0, 3)]] quadCons).fusedToBuf ∧
      ¬(((0 : Nat), (0 : Nat)) ∈ ([((0 : Nat), (0 : Nat)), (0, 2)] : List Ref) ∧
        ((0 : Nat), (1 : Nat)) ∈ ([((0 : Nat), (0 : Nat)), (0, 2)] : List Ref)) :=
  ⟨by decide,
    (solve_unfusion_refines_and_satisfies [quadVB] [[(0, 0), (0, 1), (0, 2), (0, 3)]]
      quadCons (by decide) (by decide)).2 (0, 0) (0, 1) (by decide)
      [(0, 0), (0, 2)] (by decide)⟩

end VF

namespace VF

theorem colorGroup_length_pos (cons : List (Ref × Ref)) (g : List Ref) (hne : g ≠ []) :
    0 < (colorGroup cons g).length := by
  match g with
  | [] => exact absurd rfl hne
  | x :: rest => simp [colorGroup, colorRounds]

theorem colorGroup_two_le (cons : List (Ref × Ref)) (g : List Ref) (A B : Ref)
    (hAB : (A, B) ∈ cons) (hne : A ≠ B) (hA : A ∈ g) (hB : B ∈ g) :
    2 ≤ (colorGroup cons g).length := by
  rcases hcg : colorGroup cons g with _ | ⟨s, rest2⟩
  · have hp := colorGroup_flatten_perm cons g
    rw [hcg] at hp
    simp only [List.flatten_nil] at hp
    rw [← hp.nil_eq] at hA
    cases hA
  · rcases rest2 with _ | ⟨s2, rest3⟩
    · exfalso
      have hp := colorGroup_flatten_perm cons g
      rw [hcg] at hp
      simp only [List.flatten_cons, List.flatten_nil, List.append_nil] at hp
      have hpw : s.Pairwise (fun a b : Ref => conflictB cons a b = false) :=
        colorGroup_mem_pairwise (hcg ▸ List.mem_singleton_self s)
      have hsymm : Symmetric (fun a b : Ref => conflictB cons a b = false) := by
        intro a b h
        rw [conflictB_comm]
        exact h
      have hfalse := hpw.forall hsymm (hp.symm.subset hA) (hp.symm.subset hB) hne
      unfold conflictB at hfalse
      simp [hAB] at hfalse
    · simp

/-- C9 (amended): a Solving round whose constraint set separates two distinct
members of one existing group strictly increases the number of fused groups
(all old groups assumed nonempty); rounds with no such constraint - exact
duplicate triangles produce none - leave the partition size unchanged, and
the orchestrator then loops forever. -/
theorem solve_unfusion_strict_increase (vbs : List VertexBuffer)
    (old : List (List Ref)) (cons : List (Ref × Ref))
    (hnil : ∀ g ∈ old, g ≠ []) (A B : Ref) (hAB : (A, B) ∈ cons) (hne : A ≠ B)
    (g : List Ref) (hg : g ∈ old) (hA : A ∈ g) (hB : B ∈ g) :
    old.length < (solve_unfusion vbs old cons).fusedToBuf.length := by
  have hlen : (solve_unfusion vbs old cons).fusedToBuf.length =
      (old.map (fun gg => (colorGroup cons gg).length)).sum := by
    show (List.insertionSort groupLe (old.flatMap (colorGroup cons))).length = _
    rw [(List.perm_insertionSort groupLe _).length_eq, List.length_flatMap]
    rfl
  rw [hlen]
  obtain ⟨l1, l2, rfl⟩ := List.append_of_mem hg
  rw [List.map_append, List.map_cons, List.sum_append, List.sum_cons]
  have h1 : l1.length ≤ (l1.map (fun gg => (colorGroup cons gg).length)).sum := by
    have := List.length_le_sum_of_one_le (l1.map (fun gg => (colorGroup cons gg).length)) ?_
    · simpa using this
    · intro i hi
      rw [List.mem_map] at hi
      obtain ⟨gg, hgg, rfl⟩ := hi
      exact colorGroup_length_pos cons gg (hnil gg (by simp [hgg]))
  have h2 : l2.length ≤ (l2.map (fun gg => (colorGroup cons gg).length)).sum := by
    have := List.length_le_sum_of_one_le (l2.map (fun gg => (colorGroup cons gg).length)) ?_
    · simpa using this
    · intro i hi
      rw [List.mem_map] at hi
      obtain ⟨gg, hgg, rfl⟩ := hi
      exact colorGroup_length_pos cons gg (hnil gg (by simp [hgg]))
  have hgtwo := colorGroup_two_le cons g A B hAB hne hA hB
  simp only [List.length_append, List.length_cons]
  omega

/-- C9 witness: the two-layer four-vertex scenario has one old group and two
constrained distinct vertices inside it; the Solving round produces strictly
more groups. -/
theorem solve_unfusion_strict_increase_witness :
    ([[(0, 0), (0, 1), (0, 2), (0, 3)]] : List (List Ref)).length <
      (solve_unfusion [quadVB] [[(0, 0), (0, 1), (0, 2), (0, 3)]] quadCons).fusedToBuf.length :=
  solve_unfusion_strict_increase [quadVB] [[(0, 0), (0, 1), (0, 2), (0, 3)]] quadCons
    (by decide) (0, 0) (0, 1) (by decide) (by decide) [(0, 0), (0, 1), (0, 2), (0, 3)]
    (by decide) (by decide) (by decide)

/-- C9 counterexample: an index buffer repeating the same vertex triple (a
rotated exact duplicate triangle) yields a detected collision but no
constraints; the Solving round returns the FusionIndex unchanged - the group
count does not increase - and vertex_fusion does not return even with fuel 50. -/
theorem vertex_fusion_stuck_on_duplicate_triangle :
    detect_fully_fused_triangles [dupIB] (fuse_adjacent_vertices [dupVB]).fusedToBuf
        (fuse_adjacent_vertices [dupVB]).bufToFused ≠ [] ∧
      decide_on_unfusions [dupIB] (fuse_adjacent_vertices [dupVB]).fusedToBuf
        (detect_fully_fused_triangles [dupIB] (fuse_adjacent_vertices [dupVB]).fusedToBuf
          (fuse_adjacent_vertices [dupVB]).bufToFused) = [] ∧
      solve_unfusion [dupVB] (fuse_adjacent_vertices [dupVB]).fusedToBuf
        (decide_on_unfusions [dupIB] (fuse_adjacent_vertices [dupVB]).fusedToBuf
          (detect_fully_fused_triangles [dupIB] (fuse_adjacent_vertices [dupVB]).fusedToBuf
            (fuse_adjacent_vertices [dupVB]).bufToFused)) = fuse_adjacent_vertices [dupVB] ∧
      vertex_fusion 50 [dupIB] [dupVB] = none :=
  ⟨by decide, by decide, by decide, by decide⟩

end VF

namespace VF

theorem canFuse_comm (v w : Vertex) : canFuse v w = canFuse w v := by
  unfold canFuse close
  rw [abs_sub_comm v.pos.1 w.pos.1, abs_sub_comm v.pos.2.1 w.pos.2.1,
    abs_sub_comm v.pos.2.2 w.pos.2.2, decide_eq_decide.mpr eq_comm]

theorem labelAt_range (n k : Nat) : labelAt (List.range n) k = k := by
  unfold labelAt
  by_cases h : k < n
  · rw [List.getD_eq_getElem?_getD, List.getElem?_range h]
    rfl
  · rw [List.getD_eq_getElem?_getD, List.getElem?_eq_none (by simpa using h)]
    rfl

theorem mergeLabels_length (labels : List Nat) (a b : Nat) :
    (mergeLabels labels a b).length = labels.length := by
  unfold mergeLabels
  rw [List.length_map]

theorem labelAt_mergeLabels_lt (labels : List Nat) (a b k : Nat) (hk : k < labels.length) :
    labelAt (mergeLabels labels a b) k =
      if labelAt labels k = labelAt labels b then labelAt labels a
      else labelAt labels k := by
  unfold mergeLabels labelAt
  have hk2 : k < (labels.map (fun l =>
      if l = labels.getD b b then labels.getD a a else l)).length := by
    simpa using hk
  rw [List.getD_eq_getElem _ _ hk2, List.getElem_map, List.getD_eq_getElem _ _ hk]

theorem labelAt_oob (labels : List Nat) (k : Nat) (hk : ¬k < labels.length) :
    labelAt labels k = k := by
  unfold labelAt
  rw [List.getD_eq_getElem?_getD, List.getElem?_eq_none (by simpa using hk)]
  rfl

theorem labelAt_mergeLabels (labels : List Nat) (a b k : Nat)
    (hval : ∀ m, m < labels.length → labelAt labels m < labels.length)
    (hb : b < labels.length) :
    labelAt (mergeLabels labels a b) k =
      if labelAt labels k = labelAt labels b then labelAt labels a
      else labelAt labels k := by
  by_cases hk : k < labels.length
  · exact labelAt_mergeLabels_lt labels a b k hk
  · rw [labelAt_oob _ _ (by rw [mergeLabels_length]; exact hk), labelAt_oob _ _ hk]
    have : labelAt labels b < labels.length := hval b hb
    rw [if_neg (by omega)]

theorem mergeLabels_val (labels : List Nat) (a b : Nat)
    (hval : ∀ m, m < labels.length → labelAt labels m < labels.length)
    (ha : a < labels.length) :
    ∀ m, m < (mergeLabels labels a b).length →
      labelAt (mergeLabels labels a b) m < (mergeLabels labels a b).length := by
  intro m hm
  rw [mergeLabels_length] at hm ⊢
  rw [labelAt_mergeLabels_lt labels a b m hm]
  by_cases hc : labelAt labels m = labelAt labels b
  · rw [if_pos hc]
    exact hval a ha
  · rw [if_neg hc]
    exact hval m hm

theorem mem_allPairs {n i j : Nat} : (i, j) ∈ allPairs n ↔ i < j ∧ j < n := by
  unfold allPairs
  rw [List.mem_flatMap]
  constructor
  · rintro ⟨jj, hjj, hm⟩
    rw [List.mem_map] at hm
    obtain ⟨ii, hii, heq⟩ := hm
    rw [List.mem_range] at hjj hii
    cases heq
    exact ⟨hii, hjj⟩
  · rintro ⟨hij, hjn⟩
    exact ⟨j, List.mem_range.mpr hjn, List.mem_map.mpr ⟨i, List.mem_range.mpr hij, rfl⟩⟩

theorem fuseStep_symm (vbs : List VertexBuffer) : Symmetric (fuseStep vbs) := by
  rintro x y ⟨hx, hy, hc⟩
  exact ⟨hy, hx, by rw [canFuse_comm]; exact hc⟩

theorem Reach.symm' {vbs : List VertexBuffer} {a b : Nat} (h : Reach vbs a b) :
    Reach vbs b a :=
  Relation.ReflTransGen.symmetric (fuseStep_symm vbs) h

theorem fuseFold_nil (vbs : List VertexBuffer) (labels : List Nat) :
    fuseFold vbs [] labels = labels := rfl

theorem fuseFold_cons (vbs : List VertexBuffer) (p : Nat × Nat) (rest : List (Nat × Nat))
    (labels : List Nat) :
    fuseFold vbs (p :: rest) labels =
      fuseFold vbs rest
        (if canFuse (vtxAt vbs p.1) (vtxAt vbs p.2) then mergeLabels labels p.1 p.2
         else labels) := by
  unfold fuseFold
  rw [List.foldl_cons]

theorem fuseFold_length (vbs : List VertexBuffer) :
    ∀ (ps : List (Nat × Nat)) (labels : List Nat),
      (fuseFold vbs ps labels).length = labels.length := by
  intro ps
  induction ps with
  | nil => intro labels; rfl
  | cons p rest ih =>
    intro labels
    rw [fuseFold_cons]
    by_cases hc : canFuse (vtxAt vbs p.1) (vtxAt vbs p.2)
    · rw [if_pos hc, ih, mergeLabels_length]
    · rw [if_neg hc, ih]

end VF

namespace VF

theorem fuseFold_val (vbs : List VertexBuffer) :
    ∀ (ps : List (Nat × Nat)) (labels : List Nat),
      (∀ p ∈ ps, p.1 < labels.length ∧ p.2 < labels.length) →
      (∀ m, m < labels.length → labelAt labels m < labels.length) →
      ∀ m, m < (fuseFold vbs ps labels).length →
        labelAt (fuseFold vbs ps labels) m < (fuseFold vbs ps labels).length := by
  intro ps
  induction ps with
  | nil => intro labels _ hval; exact hval
  | cons p rest ih =>
    intro labels hps hval
    rw [fuseFold_cons]
    by_cases hc : canFuse (vtxAt vbs p.1) (vtxAt vbs p.2)
    · rw [if_pos hc]
      refine ih (mergeLabels labels p.1 p.2) ?_ ?_
      · intro q hq
        rw [mergeLabels_length]
        exact hps q (List.mem_cons_of_mem p hq)
      · exact mergeLabels_val labels p.1 p.2 hval (hps p (List.mem_cons_self p rest)).1
    · rw [if_neg hc]
      refine ih labels ?_ hval
      intro q hq
      exact hps q (List.mem_cons_of_mem p hq)

theorem fuseFold_sound (vbs : List VertexBuffer) :
    ∀ (ps : List (Nat × Nat)) (labels : List Nat),
      labels.length = total vbs →
      (∀ p ∈ ps, p.1 < total vbs ∧ p.2 < total vbs) →
      (∀ m, m < labels.length → labelAt labels m < labels.length) →
      (∀ i j, labelAt labels i = labelAt labels j → Reach vbs i j) →
      ∀ i j, labelAt (fuseFold vbs ps labels) i = labelAt (fuseFold vbs ps labels) j →
        Reach vbs i j := by
  intro ps
  induction ps with
  | nil => intro labels _ _ _ hInv; exact hInv
  | cons p rest ih =>
    intro labels hlen hps hval hInv
    rw [fuseFold_cons]
    by_cases hc : canFuse (vtxAt vbs p.1) (vtxAt vbs p.2)
    · rw [if_pos hc]
      have hp := hps p (List.mem_cons_self p rest)
      have ha : p.1 < labels.length := by omega
      have hb : p.2 < labels.length := by omega
      have hedge : Reach vbs p.1 p.2 :=
        Relation.ReflTransGen.single ⟨hp.1, hp.2, hc⟩
      refine ih (mergeLabels labels p.1 p.2) (by rw [mergeLabels_length]; exact hlen)
        (fun q hq => hps q (List.mem_cons_of_mem p hq))
        (mergeLabels_val labels p.1 p.2 hval ha) ?_
      intro i j heq
      rw [labelAt_mergeLabels labels p.1 p.2 i hval hb,
        labelAt_mergeLabels labels p.1 p.2 j hval hb] at heq
      by_cases hci : labelAt labels i = labelAt labels p.2 <;>
        by_cases hcj : labelAt labels j = labelAt labels p.2
      · exact (hInv i p.2 hci).trans (hInv j p.2 hcj).symm'
      · rw [if_pos hci, if_neg hcj] at heq
        exact ((hInv i p.2 hci).trans hedge.symm').trans (hInv p.1 j heq)
      · rw [if_neg hci, if_pos hcj] at heq
        exact ((hInv i p.1 heq).trans hedge).trans (hInv j p.2 hcj).symm'
      · rw [if_neg hci, if_neg hcj] at heq
        exact hInv i j heq
    · rw [if_neg hc]
      exact ih labels hlen (fun q hq => hps q (List.mem_cons_of_mem p hq)) hval hInv

theorem fuseFold_mono (vbs : List VertexBuffer) :
    ∀ (ps : List (Nat × Nat)) (labels : List Nat),
      (∀ p ∈ ps, p.1 < labels.length ∧ p.2 < labels.length) →
      (∀ m, m < labels.length → labelAt labels m < labels.length) →
      ∀ i j, labelAt labels i = labelAt labels j →
        labelAt (fuseFold vbs ps labels) i = labelAt (fuseFold vbs ps labels) j := by
  intro ps
  induction ps with
  | nil => intro labels _ _ i j h; exact h
  | cons p rest ih =>
    intro labels hps hval i j h
    rw [fuseFold_cons]
    by_cases hc : canFuse (vtxAt vbs p.1) (vtxAt vbs p.2)
    · rw [if_pos hc]
      have hp := hps p (List.mem_cons_self p rest)
      refine ih (mergeLabels labels p.1 p.2) ?_
        (mergeLabels_val labels p.1 p.2 hval hp.1) i j ?_
      · intro q hq
        rw [mergeLabels_length]
        exact hps q (List.mem_cons_of_mem p hq)
      · rw [labelAt_mergeLabels labels p.1 p.2 i hval hp.2,
          labelAt_mergeLabels labels p.1 p.2 j hval hp.2, h]
    · rw [if_neg hc]
      exact ih labels (fun q hq => hps q (List.mem_cons_of_mem p hq)) hval i j h

theorem fuseFold_merges (vbs : List VertexBuffer) :
    ∀ (ps : List (Nat × Nat)) (labels : List Nat),
      (∀ p ∈ ps, p.1 < labels.length ∧ p.2 < labels.length) →
      (∀ m, m < labels.length → labelAt labels m < labels.length) →
      ∀ p ∈ ps, canFuse (vtxAt vbs p.1) (vtxAt vbs p.2) = true →
        labelAt (fuseFold vbs ps labels) p.1 = labelAt (fuseFold vbs ps labels) p.2 := by
  intro ps
  induction ps with
  | nil => intro labels _ _ p hp; cases hp
  | cons q rest ih =>
    intro labels hps hval p hp hcf
    rcases List.mem_cons.mp hp with rfl | hp'
    · rw [fuseFold_cons, if_pos hcf]
      have hq := hps p (List.mem_cons_self p rest)
      refine fuseFold_mono vbs rest (mergeLabels labels p.1 p.2) ?_
        (mergeLabels_val labels p.1 p.2 hval hq.1) p.1 p.2 ?_
      · intro r hr
        rw [mergeLabels_length]
        exact hps r (List.mem_cons_of_mem p hr)
      · rw [labelAt_mergeLabels labels p.1 p.2 p.1 hval hq.2,
          labelAt_mergeLabels labels p.1 p.2 p.2 hval hq.2, if_pos rfl]
        by_cases hcc : labelAt labels p.1 = labelAt labels p.2
        · rw [if_pos hcc]
        · rw [if_neg hcc]
    · rw [fuseFold_cons]
      by_cases hc : canFuse (vtxAt vbs q.1) (vtxAt vbs q.2)
      · rw [if_pos hc]
        have hq := hps q (List.mem_cons_self q rest)
        refine ih (mergeLabels labels q.1 q.2) ?_
          (mergeLabels_val labels q.1 q.2 hval hq.1) p hp' hcf
        intro r hr
        rw [mergeLabels_length]
        exact hps r (List.mem_cons_of_mem q hr)
      · rw [if_neg hc]
        exact ih labels (fun r hr => hps r (List.mem_cons_of_mem q hr)) hval p hp' hcf

theorem fuseLabels_length (vbs : List VertexBuffer) :
    (fuseLabels vbs).length = total vbs := by
  unfold fuseLabels
  rw [fuseFold_length, List.length_range]

theorem range_val (n : Nat) : ∀ m, m < (List.range n).length → labelAt (List.range n) m <
    (List.range n).length := by
  intro m hm
  rw [labelAt_range]
  exact hm

theorem allPairs_bounds {n : Nat} : ∀ p ∈ allPairs n, p.1 < n ∧ p.2 < n := by
  rintro ⟨i, j⟩ hp
  have := mem_allPairs.mp hp
  omega

theorem fuseLabels_val (vbs : List VertexBuffer) :
    ∀ m, m < total vbs → labelAt (fuseLabels vbs) m < total vbs := by
  intro m hm
  have h := fuseFold_val vbs (allPairs (total vbs)) (List.range (total vbs))
    (by intro p hp; rw [List.length_range]; exact allPairs_bounds p hp)
    (range_val (total vbs)) m
  rw [fuseFold_length, List.length_range] at h
  exact h hm

theorem fuseLabels_edge (vbs : List VertexBuffer) {b c : Nat} (h : fuseStep vbs b c) :
    labelAt (fuseLabels vbs) b = labelAt (fuseLabels vbs) c := by
  rcases h with ⟨hb, hc, hcf⟩
  have hps : ∀ p ∈ allPairs (total vbs),
      p.1 < (List.range (total vbs)).length ∧ p.2 < (List.range (total vbs)).length := by
    intro p hp
    rw [List.length_range]
    exact allPairs_bounds p hp
  rcases Nat.lt_trichotomy b c with hlt | heq | hgt
  · exact fuseFold_merges vbs (allPairs (total vbs)) (List.range (total vbs)) hps
      (range_val (total vbs)) (b, c) (mem_allPairs.mpr ⟨hlt, hc⟩) hcf
  · rw [heq]
  · exact (fuseFold_merges vbs (allPairs (total vbs)) (List.range (total vbs)) hps
      (range_val (total vbs)) (c, b) (mem_allPairs.mpr ⟨hgt, hb⟩)
      (by rw [canFuse_comm]; exact hcf)).symm

theorem fuseLabels_eq_iff_reach (vbs : List VertexBuffer) {i j : Nat} :
    labelAt (fuseLabels vbs) i = labelAt (fuseLabels vbs) j ↔ Reach vbs i j := by
  constructor
  · intro h
    refine fuseFold_sound vbs (allPairs (total vbs)) (List.range (total vbs))
      (List.length_range _) allPairs_bounds (range_val (total vbs)) ?_ i j h
    intro x y hxy
    rw [labelAt_range, labelAt_range] at hxy
    rw [hxy]
    exact Relation.ReflTransGen.refl
  · intro h
    induction h with
    | refl => rfl
    | tail _ hstep ih => exact ih.trans (fuseLabels_edge vbs hstep)

end VF

namespace VF

theorem mem_groupsOfLabels {labels : List Nat} {n : Nat} {gl : List Nat} :
    gl ∈ groupsOfLabels labels n ↔ ∃ i, i < n ∧
      (∀ j < i, labelAt labels j ≠ labelAt labels i) ∧
      gl = (List.range n).filter (fun j => labelAt labels j == labelAt labels i) := by
  unfold groupsOfLabels
  rw [List.mem_filterMap]
  constructor
  · rintro ⟨i, hi, hf⟩
    rw [List.mem_range] at hi
    by_cases hfirst : (List.range i).all (fun j => labelAt labels j != labelAt labels i)
    · rw [if_pos hfirst] at hf
      cases hf
      refine ⟨i, hi, ?_, rfl⟩
      intro j hj
      have := List.all_eq_true.mp hfirst j (List.mem_range.mpr hj)
      simpa using this
    · rw [if_neg hfirst] at hf
      cases hf
  · rintro ⟨i, hi, hfirst, rfl⟩
    refine ⟨i, List.mem_range.mpr hi, ?_⟩
    rw [if_pos ?_]
    rw [List.all_eq_true]
    intro j hj
    simpa using hfirst j (List.mem_range.mp hj)

theorem mem_filter_group {labels : List Nat} {n k i : Nat} :
    k ∈ (List.range n).filter (fun j => labelAt labels j == labelAt labels i) ↔
      k < n ∧ labelAt labels k = labelAt labels i := by
  rw [List.mem_filter, List.mem_range]
  simp

theorem groupsOfLabels_same_group {labels : List Nat} {n a b : Nat}
    (ha : a < n) (hb : b < n) :
    (∃ gl ∈ groupsOfLabels labels n, a ∈ gl ∧ b ∈ gl) ↔
      labelAt labels a = labelAt labels b := by
  constructor
  · rintro ⟨gl, hgl, hma, hmb⟩
    obtain ⟨i, _, _, rfl⟩ := mem_groupsOfLabels.mp hgl
    have h1 := (mem_filter_group.mp hma).2
    have h2 := (mem_filter_group.mp hmb).2
    rw [h1, h2]
  · intro hab
    have hex : ∃ m, m < n ∧ labelAt labels m = labelAt labels a := ⟨a, ha, rfl⟩
    classical
    let i0 := Nat.find hex
    have hspec := Nat.find_spec hex
    refine ⟨(List.range n).filter (fun j => labelAt labels j == labelAt labels i0),
      mem_groupsOfLabels.mpr ⟨i0, hspec.1, ?_, rfl⟩, ?_, ?_⟩
    · intro j hj hlbl
      have hjn : j < n := lt_trans hj hspec.1
      exact Nat.find_min hex hj ⟨hjn, by rw [hlbl, hspec.2]⟩
    · exact mem_filter_group.mpr ⟨ha, hspec.2.symm⟩
    · exact mem_filter_group.mpr ⟨hb, by rw [hab.symm, hspec.2]⟩

theorem refOfAux_inj : ∀ (lens : List Nat) (k1 k2 : Nat),
    refOfAux lens k1 = refOfAux lens k2 → k1 = k2 := by
  intro lens
  induction lens with
  | nil =>
    intro k1 k2 h
    unfold refOfAux at h
    exact (Prod.mk.injEq _ _ _ _).mp h |>.2
  | cons len rest ih =>
    intro k1 k2 h
    unfold refOfAux at h
    by_cases h1 : k1 < len <;> by_cases h2 : k2 < len
    · rw [if_pos h1, if_pos h2] at h
      exact (Prod.mk.injEq _ _ _ _).mp h |>.2
    · rw [if_pos h1, if_neg h2] at h
      have := (Prod.mk.injEq _ _ _ _).mp h |>.1
      omega
    · rw [if_neg h1, if_pos h2] at h
      have := (Prod.mk.injEq _ _ _ _).mp h |>.1
      omega
    · rw [if_neg h1, if_neg h2] at h
      have h1' := (Prod.mk.injEq _ _ _ _).mp h |>.1
      have h2' := (Prod.mk.injEq _ _ _ _).mp h |>.2
      have : refOfAux rest (k1 - len) = refOfAux rest (k2 - len) := by
        exact Prod.ext (by omega) h2'
      have := ih _ _ this
      omega

theorem refOf_inj {lens : List Nat} {k1 k2 : Nat} (h : refOf lens k1 = refOf lens k2) :
    k1 = k2 :=
  refOfAux_inj lens k1 k2 h

theorem reach_attrs_eq {vbs : List VertexBuffer} {a b : Nat} (h : Reach vbs a b) :
    (vtxAt vbs a).attrs = (vtxAt vbs b).attrs := by
  induction h with
  | refl => rfl
  | tail _ hstep ih =>
    rcases hstep with ⟨_, _, hcf⟩
    unfold canFuse at hcf
    rw [Bool.and_eq_true] at hcf
    exact ih.trans (of_decide_eq_true hcf.1)

/-- C7 (amended): two OriginalVertexRefs are placed in the same pre-unfusion
fused group exactly when a chain of matching vertex pairs (equal non-position
attributes, positions componentwise within epsilon) connects them - this
includes chains across buffer boundaries - and all members of one group share
exactly equal non-position attributes; positions of two members may however
drift beyond epsilon along the chain. -/
theorem fuse_adjacent_vertices_same_group_iff (vbs : List VertexBuffer) (a b : Nat)
    (ha : a < total vbs) (hb : b < total vbs) :
    ((∃ g ∈ (fuse_adjacent_vertices vbs).fusedToBuf,
        refOf (vbs.map List.length) a ∈ g ∧ refOf (vbs.map List.length) b ∈ g) ↔
      Reach vbs a b) ∧
    (Reach vbs a b → (vtxAt vbs a).attrs = (vtxAt vbs b).attrs) := by
  refine ⟨?_, reach_attrs_eq⟩
  rw [← fuseLabels_eq_iff_reach, ← groupsOfLabels_same_group ha hb]
  show (∃ g ∈ (groupsOfLabels (fuseLabels vbs) (total vbs)).map
      (fun g => g.map (refOf (vbs.map List.length))), _ ∧ _) ↔ _
  constructor
  · rintro ⟨g, hg, hma, hmb⟩
    rw [List.mem_map] at hg
    obtain ⟨gl, hgl, rfl⟩ := hg
    rw [List.mem_map] at hma hmb
    obtain ⟨x, hx, hxa⟩ := hma
    obtain ⟨y, hy, hyb⟩ := hmb
    cases refOf_inj hxa
    cases refOf_inj hyb
    exact ⟨gl, hgl, hx, hy⟩
  · rintro ⟨gl, hgl, hma, hmb⟩
    exact ⟨gl.map (refOf (vbs.map List.length)), List.mem_map.mpr ⟨gl, hgl, rfl⟩,
      List.mem_map.mpr ⟨a, hma, rfl⟩, List.mem_map.mpr ⟨b, hmb, rfl⟩⟩

/-- C7 witness: in the hexagon scenario, the coincident center vertices C
(flat id 2) and D (flat id 3) match directly, so the theorem places them in
one fused group with exactly equal attributes. -/
theorem fuse_adjacent_vertices_same_group_iff_witness :
    (∃ g ∈ (fuse_adjacent_vertices [hexVB]).fusedToBuf,
        refOf ([hexVB].map List.length) 2 ∈ g ∧ refOf ([hexVB].map List.length) 3 ∈ g) ∧
      (vtxAt [hexVB] 2).attrs = (vtxAt [hexVB] 3).attrs :=
  ⟨(fuse_adjacent_vertices_same_group_iff [hexVB] 2 3 (by decide) (by decide)).1.mpr
      (Relation.ReflTransGen.single ⟨by decide, by decide, by decide⟩),
    (fuse_adjacent_vertices_same_group_iff [hexVB] 2 3 (by decide) (by decide)).2
      (Relation.ReflTransGen.single ⟨by decide, by decide, by decide⟩)⟩

/-- C7 counterexample: three collinear vertices, each consecutive pair exactly
epsilon apart, all fuse into one group, yet the positions of the two outer
members differ by two epsilons - more than the fixed epsilon - even though
their attributes agree. -/
theorem fuse_adjacent_vertices_chain_beyond_eps :
    (∃ g ∈ (fuse_adjacent_vertices [chainVB]).fusedToBuf,
        ((0, 0) : Ref) ∈ g ∧ ((0, 2) : Ref) ∈ g) ∧
      close (vtxAt [chainVB] 0).pos (vtxAt [chainVB] 2).pos = false ∧
      (vtxAt [chainVB] 0).attrs = (vtxAt [chainVB] 2).attrs :=
  ⟨⟨[(0, 0), (0, 1), (0, 2)], by decide, by decide, by decide⟩, by decide, by decide⟩

end VF

namespace VF

theorem getD_map_length (vbs : List VertexBuffer) (b : Nat) :
    (vbs.map List.length).getD b 0 = (vbs.getD b []).length := by
  by_cases hb : b < vbs.length
  · rw [List.getD_eq_getElem _ _ (by simpa using hb), List.getElem_map,
      List.getD_eq_getElem _ _ hb]
  · rw [List.getD_eq_getElem?_getD, List.getElem?_eq_none (by simpa using hb),
      List.getD_eq_getElem?_getD, List.getElem?_eq_none (by simpa using hb)]
    rfl

theorem refOfAux_valid : ∀ (lens : List Nat) (k : Nat), k < lens.sum →
    (refOfAux lens k).1 < lens.length ∧ (refOfAux lens k).2 < lens.getD (refOfAux lens k).1 0 := by
  intro lens
  induction lens with
  | nil => intro k hk; simp at hk
  | cons len rest ih =>
    intro k hk
    rw [List.sum_cons] at hk
    unfold refOfAux
    by_cases h : k < len
    · rw [if_pos h]
      exact ⟨by simp, by simpa using h⟩
    · rw [if_neg h]
      have hk' : k - len < rest.sum := by omega
      have := ih (k - len) hk'
      exact ⟨by simpa using this.1, by simpa using this.2⟩

theorem refOfAux_surj : ∀ (lens : List Nat) (b i : Nat), b < lens.length →
    i < lens.getD b 0 → ∃ k, k < lens.sum ∧ refOfAux lens k = (b, i) := by
  intro lens
  induction lens with
  | nil => intro b i hb; simp at hb
  | cons len rest ih =>
    intro b i hb hi
    match b with
    | 0 =>
      refine ⟨i, ?_, ?_⟩
      · have : i < len := by simpa using hi
        rw [List.sum_cons]
        omega
      · unfold refOfAux
        rw [if_pos (by simpa using hi)]
    | b' + 1 =>
      have hb' : b' < rest.length := by simpa using hb
      have hi' : i < rest.getD b' 0 := by simpa using hi
      obtain ⟨k', hk', hr⟩ := ih b' i hb' hi'
      refine ⟨len + k', ?_, ?_⟩
      · rw [List.sum_cons]
        omega
      · unfold refOfAux
        rw [if_neg (by omega)]
        rw [show len + k' - len = k' by omega, hr]

theorem groupsOfLabels_flatten_nodup (labels : List Nat) (n : Nat) :
    (groupsOfLabels labels n).flatten.Nodup := by
  rw [List.nodup_flatten]
  constructor
  · intro gl hgl
    obtain ⟨i, _, _, rfl⟩ := mem_groupsOfLabels.mp hgl
    exact (List.nodup_range n).filter _
  · unfold groupsOfLabels
    rw [List.pairwise_filterMap]
    have hpw := List.pairwise_lt_range n
    refine hpw.imp_of_mem ?_
    intro i1 i2 h1 h2 hlt gl1 hgl1 gl2 hgl2
    by_cases hf1 : (List.range i1).all (fun j => labelAt labels j != labelAt labels i1)
    · rw [if_pos hf1, Option.mem_def, Option.some.injEq] at hgl1
      by_cases hf2 : (List.range i2).all (fun j => labelAt labels j != labelAt labels i2)
      · rw [if_pos hf2, Option.mem_def, Option.some.injEq] at hgl2
        subst hgl1
        subst hgl2
        intro k hk1 hk2
        have e1 := (mem_filter_group.mp hk1).2
        have e2 := (mem_filter_group.mp hk2).2
        have := List.all_eq_true.mp hf2 i1 (List.mem_range.mpr hlt)
        rw [bne_iff_ne] at this
        exact this (by rw [← e1, e2])
      · rw [if_neg hf2] at hgl2
        cases hgl2
    · rw [if_neg hf1] at hgl1
      cases hgl1

theorem mem_groupsOfLabels_flatten {labels : List Nat} {n k : Nat} :
    k ∈ (groupsOfLabels labels n).flatten ↔ k < n := by
  rw [List.mem_flatten]
  constructor
  · rintro ⟨gl, hgl, hk⟩
    obtain ⟨i, _, _, rfl⟩ := mem_groupsOfLabels.mp hgl
    exact (mem_filter_group.mp hk).1
  · intro hk
    obtain ⟨gl, hgl, hm, _⟩ := (groupsOfLabels_same_group hk hk).mpr rfl
    exact ⟨gl, hgl, hm⟩

theorem refOf_injective (lens : List Nat) : Function.Injective (refOf lens) := by
  intro a b h
  exact refOf_inj h

theorem fuse_adjacent_vertices_valid (vbs : List VertexBuffer) (r : Ref)
    (hr : r ∈ ((fuse_adjacent_vertices vbs).fusedToBuf).flatten) :
    r.1 < vbs.length ∧ r.2 < (vbs.getD r.1 []).length := by
  have hr' : r ∈ (((groupsOfLabels (fuseLabels vbs) (total vbs))).map
      (fun g => g.map (refOf (vbs.map List.length)))).flatten := hr
  rw [← List.map_flatten, List.mem_map] at hr'
  obtain ⟨k, hk, rfl⟩ := hr'
  rw [mem_groupsOfLabels_flatten] at hk
  have := refOfAux_valid (vbs.map List.length) k (by unfold total at hk; exact hk)
  refine ⟨by simpa using this.1, ?_⟩
  rw [← getD_map_length]
  exact this.2

theorem fuse_adjacent_vertices_flatten_nodup (vbs : List VertexBuffer) :
    ((fuse_adjacent_vertices vbs).fusedToBuf).flatten.Nodup := by
  show ((((groupsOfLabels (fuseLabels vbs) (total vbs))).map
    (fun g => g.map (refOf (vbs.map List.length)))).flatten).Nodup
  rw [← List.map_flatten]
  exact (groupsOfLabels_flatten_nodup _ _).map (refOf_injective _)

theorem fuse_adjacent_vertices_mem_iff (vbs : List VertexBuffer) (r : Ref) :
    r ∈ ((fuse_adjacent_vertices vbs).fusedToBuf).flatten ↔
      r.1 < vbs.length ∧ r.2 < (vbs.getD r.1 []).length := by
  constructor
  · exact fuse_adjacent_vertices_valid vbs r
  · rintro ⟨hb, hi⟩
    obtain ⟨k, hk, hrk⟩ := refOfAux_surj (vbs.map List.length) r.1 r.2 (by simpa using hb)
      (by rw [getD_map_length]; exact hi)
    show r ∈ (((groupsOfLabels (fuseLabels vbs) (total vbs))).map
      (fun g => g.map (refOf (vbs.map List.length)))).flatten
    rw [← List.map_flatten, List.mem_map]
    refine ⟨k, mem_groupsOfLabels_flatten.mpr (by unfold total; exact hk), ?_⟩
    rw [refOf, hrk]

theorem mkBufToFused_lookup (lens : List Nat) (groups : List (List Ref)) (b i : Nat)
    (hb : b < lens.length) (hi : i < lens.getD b 0) :
    fidB (mkBufToFused lens groups) b i = groups.findIdx (fun g => decide ((b, i) ∈ g)) := by
  have h1 : (mkBufToFused lens groups).getD b [] =
      (List.range (lens.getD b 0)).map
        (fun i => groups.findIdx (fun g => decide ((b, i) ∈ g))) := by
    unfold mkBufToFused
    rw [List.getD_eq_getElem _ _ (show b < ((List.range lens.length).map
        (fun b => (List.range (lens.getD b 0)).map
          (fun i => groups.findIdx (fun g => decide ((b, i) ∈ g))))).length by
      simpa using hb)]
    rw [List.getElem_map, List.getElem_range]
  unfold fidB
  rw [h1, List.getD_eq_getElem _ _ (by simpa using hi), List.getElem_map, List.getElem_range]

theorem findIdx_getD_mem {groups : List (List Ref)} {r : Ref}
    (h : ∃ g ∈ groups, r ∈ g) :
    r ∈ groups.getD (groups.findIdx (fun g => decide (r ∈ g))) [] := by
  have hlt : groups.findIdx (fun g => decide (r ∈ g)) < groups.length :=
    List.findIdx_lt_length_of_exists (by simpa using h)
  rw [List.getD_eq_getElem _ _ hlt]
  have := List.findIdx_getElem (w := hlt)
  simpa using this

end VF

namespace VF

theorem fusionLoop_partition (ibs : List IndexBuffer) (vbs : List VertexBuffer) :
    ∀ (fuel : Nat) (idx0 idx : FusionIndex),
      idx0.bufToFused = mkBufToFused (vbs.map List.length) idx0.fusedToBuf →
      (idx0.fusedToBuf).flatten.Nodup →
      (∀ r : Ref, r ∈ (idx0.fusedToBuf).flatten ↔
        r.1 < vbs.length ∧ r.2 < (vbs.getD r.1 []).length) →
      fusionLoop ibs vbs fuel idx0 = some idx →
      idx.bufToFused = mkBufToFused (vbs.map List.length) idx.fusedToBuf ∧
        (idx.fusedToBuf).flatten.Nodup ∧
        (∀ r : Ref, r ∈ (idx.fusedToBuf).flatten ↔
          r.1 < vbs.length ∧ r.2 < (vbs.getD r.1 []).length) := by
  intro fuel
  induction fuel with
  | zero =>
    intro idx0 idx _ _ _ h
    exact absurd h (by simp [fusionLoop])
  | succ n ih =>
    intro idx0 idx hb hn hm h
    unfold fusionLoop at h
    by_cases hd : detect_fully_fused_triangles ibs idx0.fusedToBuf idx0.bufToFused = []
    · rw [if_pos hd] at h
      cases h
      exact ⟨hb, hn, hm⟩
    · rw [if_neg hd] at h
      have hperm := solve_unfusion_flatten_perm vbs idx0.fusedToBuf
        (decide_on_unfusions ibs idx0.fusedToBuf
          (detect_fully_fused_triangles ibs idx0.fusedToBuf idx0.bufToFused))
      refine ih _ idx rfl (hperm.nodup_iff.mpr hn) ?_ h
      intro r
      rw [hperm.mem_iff]
      exact hm r

/-- C2: in the FusionIndex returned by vertex_fusion, every OriginalVertexRef
of every buffer appears in exactly one FusedGroup - the concatenation of all
groups has no duplicates and contains precisely the valid references - and
buf_idx_to_fused_idx maps each reference to the id of the (unique) group
containing it. -/
theorem vertex_fusion_partition (fuel : Nat) (ibs : List IndexBuffer)
    (vbs : List VertexBuffer) (idx : FusionIndex)
    (h : vertex_fusion fuel ibs vbs = some idx) :
    (idx.fusedToBuf).flatten.Nodup ∧
      (∀ r : Ref, r ∈ (idx.fusedToBuf).flatten ↔
        r.1 < vbs.length ∧ r.2 < (vbs.getD r.1 []).length) ∧
      (∀ b i, b < vbs.length → i < (vbs.getD b []).length →
        (b, i) ∈ idx.fusedToBuf.getD (fidB idx.bufToFused b i) []) := by
  have hfin := fusionLoop_partition ibs vbs fuel (fuse_adjacent_vertices vbs) idx rfl
    (fuse_adjacent_vertices_flatten_nodup vbs) (fuse_adjacent_vertices_mem_iff vbs) h
  refine ⟨hfin.2.1, hfin.2.2, ?_⟩
  intro b i hbv hiv
  have hmem : (b, i) ∈ (idx.fusedToBuf).flatten := (hfin.2.2 (b, i)).mpr ⟨hbv, hiv⟩
  rw [List.mem_flatten] at hmem
  rw [hfin.1, mkBufToFused_lookup _ _ b i (by simpa using hbv)
    (by rw [getD_map_length]; exact hiv)]
  exact findIdx_getD_mem hmem

/-- C2 witness: the hexagon scenario's returned FusionIndex partitions all six
original vertices with a consistent buf_idx_to_fused_idx. -/
theorem vertex_fusion_partition_witness :
    ((fuse_adjacent_vertices [hexVB]).fusedToBuf).flatten.Nodup ∧
      (∀ r : Ref, r ∈ ((fuse_adjacent_vertices [hexVB]).fusedToBuf).flatten ↔
        r.1 < [hexVB].length ∧ r.2 < ([hexVB].getD r.1 []).length) ∧
      (∀ b i, b < [hexVB].length → i < ([hexVB].getD b []).length →
        (b, i) ∈ (fuse_adjacent_vertices [hexVB]).fusedToBuf.getD
          (fidB (fuse_adjacent_vertices [hexVB]).bufToFused b i) []) :=
  vertex_fusion_partition 2 [hexIB] [hexVB] (fuse_adjacent_vertices [hexVB]) (by decide)

end VF

namespace VF

theorem refLtP_to_leP {a b : Ref} (h : refLtP a b) : refLeP a b := by
  unfold refLtP at h
  unfold refLeP
  omega

theorem refOfAux_strictMono : ∀ (lens : List Nat) (k k' : Nat), k < k' →
    refLtP (refOfAux lens k) (refOfAux lens k') := by
  intro lens
  induction lens with
  | nil =>
    intro k k' hk
    unfold refOfAux refLtP
    right
    exact ⟨rfl, hk⟩
  | cons len rest ih =>
    intro k k' hk
    unfold refOfAux
    by_cases h1 : k < len <;> by_cases h2 : k' < len
    · rw [if_pos h1, if_pos h2]
      right
      exact ⟨rfl, hk⟩
    · rw [if_pos h1, if_neg h2]
      left
      simp
    · omega
    · rw [if_neg h1, if_neg h2]
      have := ih (k - len) (k' - len) (by omega)
      unfold refLtP at this ⊢
      simp only
      omega

theorem head_min_of_sorted {g : List Ref} (hs : g.Pairwise refLtP) :
    ∀ r ∈ g, refLeP (headRef g) r := by
  match g with
  | [] => intro r hr; cases hr
  | x :: rest =>
    intro r hr
    rcases List.mem_cons.mp hr with rfl | hr'
    · show refLeP r r
      unfold refLeP
      omega
    · exact refLtP_to_leP ((List.pairwise_cons.mp hs).1 r hr')

theorem groupsOfLabels_member_sorted {labels : List Nat} {n : Nat} {gl : List Nat}
    (h : gl ∈ groupsOfLabels labels n) : gl.Pairwise (· < ·) := by
  obtain ⟨i, _, _, rfl⟩ := mem_groupsOfLabels.mp h
  exact (List.pairwise_lt_range n).filter _

theorem groupsOfLabels_head {labels : List Nat} {n i : Nat} (hi : i < n)
    (hfirst : ∀ j < i, labelAt labels j ≠ labelAt labels i) :
    ((List.range n).filter (fun j => labelAt labels j == labelAt labels i)).head? =
      some i := by
  have hsplit : List.range n = List.range i ++ i :: (List.range n).drop (i + 1) := by
    have h1 : List.range i = (List.range n).take i := by
      rw [List.take_range]
      rw [min_eq_left (by omega)]
    have h2 : (List.range n).drop i = i :: (List.range n).drop (i + 1) := by
      rw [List.drop_eq_getElem_cons (by simpa using hi)]
      rw [List.getElem_range]
    rw [h1, ← h2, List.take_append_drop]
  rw [hsplit, List.filter_append]
  have hempty : (List.range i).filter (fun j => labelAt labels j == labelAt labels i) = [] := by
    rw [List.filter_eq_nil_iff]
    intro j hj
    rw [List.mem_range] at hj
    simpa using hfirst j hj
  rw [hempty, List.filter_cons]
  rw [if_pos (by simp)]
  rfl

theorem headRef_map_refOf {gl : List Nat} {lens : List Nat} {i : Nat}
    (h : gl.head? = some i) : headRef (gl.map (refOf lens)) = refOf lens i := by
  match gl with
  | [] => cases h
  | x :: rest =>
    rw [List.head?_cons, Option.some.injEq] at h
    subst h
    rfl

end VF

namespace VF

theorem getD_map_range {α : Type} {f : Nat → α} {n b : Nat} {d : α} (hb : b < n) :
    ((List.range n).map f).getD b d = f b := by
  rw [List.getD_eq_getElem _ _ (by simpa using hb), List.getElem_map, List.getElem_range]

theorem mkIsFused_lookup (lens : List Nat) (groups : List (List Ref)) (b i : Nat)
    (hb : b < lens.length) (hi : i < lens.getD b 0) :
    ((mkIsFused lens groups).getD b []).getD i false =
      match groups.find? (fun g => decide ((b, i) ∈ g)) with
      | some g => decide (g.head? ≠ some (b, i))
      | none => false := by
  have h1 : ((mkIsFused lens groups).getD b []).getD i false =
      ((List.range (lens.getD b 0)).map (fun i =>
        match groups.find? (fun g => decide ((b, i) ∈ g)) with
        | some g => decide (g.head? ≠ some (b, i))
        | none => false)).getD i false := by
    show ((((List.range lens.length).map _).getD b []).getD i false) = _
    rw [getD_map_range hb]
  rw [h1, getD_map_range hi]

theorem find?_group_unique {groups : List (List Ref)} {r : Ref} {g : List Ref}
    (hnodup : groups.flatten.Nodup) (hg : g ∈ groups) (hr : r ∈ g) :
    groups.find? (fun g' => decide (r ∈ g')) = some g := by
  induction groups with
  | nil => cases hg
  | cons g0 rest ih =>
    rw [List.flatten_cons] at hnodup
    have hdis := List.disjoint_of_nodup_append hnodup
    by_cases h0 : r ∈ g0
    · rw [List.find?_cons_of_pos _ (by simpa using h0)]
      rcases List.mem_cons.mp hg with rfl | hg'
      · rfl
      · exfalso
        exact hdis h0 (List.mem_flatten.mpr ⟨g, hg', hr⟩)
    · rw [List.find?_cons_of_neg _ (by simpa using h0)]
      rcases List.mem_cons.mp hg with rfl | hg'
      · exact absurd hr h0
      · exact ih ((List.nodup_append.mp hnodup).2.1) hg'

end VF

namespace VF

theorem fuse_member_sorted (vbs : List VertexBuffer) :
    ∀ g ∈ (fuse_adjacent_vertices vbs).fusedToBuf, g.Pairwise refLtP := by
  intro g hg
  have hg' : g ∈ (groupsOfLabels (fuseLabels vbs) (total vbs)).map
      (fun gl => gl.map (refOf (vbs.map List.length))) := hg
  rw [List.mem_map] at hg'
  obtain ⟨gl, hgl, rfl⟩ := hg'
  rw [List.pairwise_map]
  exact (groupsOfLabels_member_sorted hgl).imp
    (fun hxy => refOfAux_strictMono _ _ _ hxy)

theorem fuse_groups_sorted (vbs : List VertexBuffer) :
    (fuse_adjacent_vertices vbs).fusedToBuf.Pairwise groupLe := by
  show ((groupsOfLabels (fuseLabels vbs) (total vbs)).map
    (fun gl => gl.map (refOf (vbs.map List.length)))).Pairwise groupLe
  rw [List.pairwise_map]
  unfold groupsOfLabels
  rw [List.pairwise_filterMap]
  refine (List.pairwise_lt_range _).imp_of_mem ?_
  intro i1 i2 h1 h2 hlt gl1 hgl1 gl2 hgl2
  rw [List.mem_range] at h1 h2
  by_cases hf1 : (List.range i1).all (fun j => labelAt (fuseLabels vbs) j !=
      labelAt (fuseLabels vbs) i1)
  · rw [if_pos hf1, Option.mem_def, Option.some.injEq] at hgl1
    by_cases hf2 : (List.range i2).all (fun j => labelAt (fuseLabels vbs) j !=
        labelAt (fuseLabels vbs) i2)
    · rw [if_pos hf2, Option.mem_def, Option.some.injEq] at hgl2
      subst hgl1
      subst hgl2
      have hh1 := groupsOfLabels_head h1 (fun j hj => by
        simpa using List.all_eq_true.mp hf1 j (List.mem_range.mpr hj))
      have hh2 := groupsOfLabels_head h2 (fun j hj => by
        simpa using List.all_eq_true.mp hf2 j (List.mem_range.mpr hj))
      show groupLe _ _
      unfold groupLe
      rw [headRef_map_refOf hh1, headRef_map_refOf hh2]
      exact refLtP_to_leP (refOfAux_strictMono _ _ _ hlt)
    · rw [if_neg hf2] at hgl2
      cases hgl2
  · rw [if_neg hf1] at hgl1
    cases hgl1

theorem fuse_isFused_spec (vbs : List VertexBuffer) (b i : Nat) (g : List Ref)
    (hb : b < vbs.length) (hi : i < (vbs.getD b []).length)
    (hg : g ∈ (fuse_adjacent_vertices vbs).fusedToBuf)
    (hmem : (b, i) ∈ g) :
    (((fuse_adjacent_vertices vbs).isFused.getD b []).getD i false) =
      decide (g.head? ≠ some (b, i)) := by
  have hl : (fuse_adjacent_vertices vbs).isFused =
      mkIsFused (vbs.map List.length) (fuse_adjacent_vertices vbs).fusedToBuf := rfl
  rw [hl, mkIsFused_lookup _ _ b i (by simpa using hb)
    (by rw [getD_map_length]; exact hi)]
  rw [find?_group_unique (fuse_adjacent_vertices_flatten_nodup vbs) hg hmem]

theorem solve_member_sorted (vbs : List VertexBuffer) (old : List (List Ref))
    (cons : List (Ref × Ref)) (hold : ∀ g ∈ old, g.Pairwise refLtP) :
    ∀ g' ∈ (solve_unfusion vbs old cons).fusedToBuf, g'.Pairwise refLtP := by
  intro g' hg'
  obtain ⟨g, hg, hcg⟩ := solve_unfusion_mem.mp hg'
  exact List.Pairwise.sublist (colorGroup_mem_sublist hcg) (hold g hg)

theorem solve_groups_sorted (vbs : List VertexBuffer) (old : List (List Ref))
    (cons : List (Ref × Ref)) :
    (solve_unfusion vbs old cons).fusedToBuf.Pairwise groupLe := by
  show (List.insertionSort groupLe (old.flatMap (colorGroup cons))).Pairwise groupLe
  exact List.sorted_insertionSort groupLe _

theorem solve_isFused_spec (vbs : List VertexBuffer) (old : List (List Ref))
    (cons : List (Ref × Ref)) (hold_nodup : old.flatten.Nodup) (b i : Nat)
    (g' : List Ref) (hb : b < vbs.length) (hi : i < (vbs.getD b []).length)
    (hg : g' ∈ (solve_unfusion vbs old cons).fusedToBuf) (hmem : (b, i) ∈ g') :
    (((solve_unfusion vbs old cons).isFused.getD b []).getD i false) =
      decide (g'.head? ≠ some (b, i)) := by
  have hl : (solve_unfusion vbs old cons).isFused =
      mkIsFused (vbs.map List.length) (solve_unfusion vbs old cons).fusedToBuf := rfl
  rw [hl, mkIsFused_lookup _ _ b i (by simpa using hb)
    (by rw [getD_map_length]; exact hi)]
  have hnodup : ((solve_unfusion vbs old cons).fusedToBuf).flatten.Nodup :=
    (solve_unfusion_flatten_perm vbs old cons).nodup_iff.mpr hold_nodup
  rw [find?_group_unique hnodup hg hmem]

/-- C6: in the FusionIndex built by fuse_adjacent_vertices, and in the one
built by each solve_unfusion round (given the round's input groups are
duplicate-free with ascending members, as the pipeline maintains), every
group's member list is ascending in (buffer_id, original_index), fused ids
are assigned with the groups sorted by their lowest member (the head), and
is_fused is true for exactly the members of a group other than its first
(lowest) member. -/
theorem fusion_index_ordering (vbs : List VertexBuffer) (old : List (List Ref))
    (cons : List (Ref × Ref)) (hold_sorted : ∀ g ∈ old, g.Pairwise refLtP)
    (hold_nodup : old.flatten.Nodup) :
    ((∀ g ∈ (fuse_adjacent_vertices vbs).fusedToBuf,
        g.Pairwise refLtP ∧ ∀ r ∈ g, refLeP (headRef g) r) ∧
      (fuse_adjacent_vertices vbs).fusedToBuf.Pairwise groupLe ∧
      (∀ b i g, b < vbs.length → i < (vbs.getD b []).length →
        g ∈ (fuse_adjacent_vertices vbs).fusedToBuf → (b, i) ∈ g →
        (((fuse_adjacent_vertices vbs).isFused.getD b []).getD i false) =
          decide (g.head? ≠ some (b, i)))) ∧
    ((∀ g' ∈ (solve_unfusion vbs old cons).fusedToBuf,
        g'.Pairwise refLtP ∧ ∀ r ∈ g', refLeP (headRef g') r) ∧
      (solve_unfusion vbs old cons).fusedToBuf.Pairwise groupLe ∧
      (∀ b i g', b < vbs.length → i < (vbs.getD b []).length →
        g' ∈ (solve_unfusion vbs old cons).fusedToBuf → (b, i) ∈ g' →
        (((solve_unfusion vbs old cons).isFused.getD b []).getD i false) =
          decide (g'.head? ≠ some (b, i)))) := by
  refine ⟨⟨?_, fuse_groups_sorted vbs, ?_⟩, ⟨?_, solve_groups_sorted vbs old cons, ?_⟩⟩
  · intro g hg
    have hs := fuse_member_sorted vbs g hg
    exact ⟨hs, head_min_of_sorted hs⟩
  · intro b i g hb hi hg hmem
    exact fuse_isFused_spec vbs b i g hb hi hg hmem
  · intro g' hg'
    have hs := solve_member_sorted vbs old cons hold_sorted g' hg'
    exact ⟨hs, head_min_of_sorted hs⟩
  · intro b i g' hb hi hg hmem
    exact solve_isFused_spec vbs old cons hold_nodup b i g' hb hi hg hmem

/-- C6 witness: concrete instantiation on the hexagon buffer and the
two-layer four-vertex solver scenario. -/
theorem fusion_index_ordering_witness :
    ((∀ g ∈ (fuse_adjacent_vertices [hexVB]).fusedToBuf,
        g.Pairwise refLtP ∧ ∀ r ∈ g, refLeP (headRef g) r) ∧
      (fuse_adjacent_vertices [hexVB]).fusedToBuf.Pairwise groupLe ∧
      (∀ b i g, b < [hexVB].length → i < ([hexVB].getD b []).length →
        g ∈ (fuse_adjacent_vertices [hexVB]).fusedToBuf → (b, i) ∈ g →
        (((fuse_adjacent_vertices [hexVB]).isFused.getD b []).getD i false) =
          decide (g.head? ≠ some (b, i)))) ∧
    ((∀ g' ∈ (solve_unfusion [quadVB] [[(0, 0), (0, 1), (0, 2), (0, 3)]]
          quadCons).fusedToBuf,
        g'.Pairwise refLtP ∧ ∀ r ∈ g', refLeP (headRef g') r) ∧
      (solve_unfusion [quadVB] [[(0, 0), (0, 1), (0, 2), (0, 3)]]
        quadCons).fusedToBuf.Pairwise groupLe ∧
      (∀ b i g', b < [quadVB].length → i < ([quadVB].getD b []).length →
        g' ∈ (solve_unfusion [quadVB] [[(0, 0), (0, 1), (0, 2), (0, 3)]]
          quadCons).fusedToBuf → (b, i) ∈ g' →
        (((solve_unfusion [quadVB] [[(0, 0), (0, 1), (0, 2), (0, 3)]]
          quadCons).isFused.getD b []).getD i false) =
          decide (g'.head? ≠ some (b, i)))) :=
  ⟨(fusion_index_ordering [hexVB] [[(0, 0), (0, 1), (0, 2), (0, 3)]] quadCons
      (by decide) (by decide)).1,
    (fusion_index_ordering [quadVB] [[(0, 0), (0, 1), (0, 2), (0, 3)]] quadCons
      (by decide) (by decide)).2⟩

end VF

namespace VF

theorem alignedOriginals_length (f2b : List (List Ref)) (bt : Nat × Tri) :
    (alignedOriginals f2b bt).length = 3 := by
  unfold alignedOriginals
  rw [List.length_map, (List.perm_insertionSort _ _).length_eq, List.length_map]
  rfl

theorem firstDiff_eq_none : ∀ (a : List Ref), firstDiff a a = none := by
  intro a
  induction a with
  | nil => rfl
  | cons x as ih =>
    unfold firstDiff
    rw [if_pos rfl]
    exact ih

theorem firstDiff_ne : ∀ (a b : List Ref), a.length = b.length → a ≠ b →
    ∃ p, p < a.length ∧
      (∀ q, q < p → a.getD q (0, 0) = b.getD q (0, 0)) ∧
      a.getD p (0, 0) ≠ b.getD p (0, 0) ∧
      firstDiff a b = some (a.getD p (0, 0), b.getD p (0, 0)) := by
  intro a
  induction a with
  | nil =>
    intro b hlen hne
    have : b = [] := by
      cases b
      · rfl
      · simp at hlen
    exact absurd this.symm hne
  | cons x as ih =>
    intro b hlen hne
    match b with
    | [] => simp at hlen
    | y :: bs =>
      by_cases hxy : x = y
      · subst hxy
        have hne' : as ≠ bs := fun h => hne (by rw [h])
        obtain ⟨p, hp, hq, hd, hfd⟩ := ih bs (by simpa using hlen) hne'
        refine ⟨p + 1, by simpa using hp, ?_, ?_, ?_⟩
        · intro q hq'
          match q with
          | 0 => rfl
          | q' + 1 => exact hq q' (by omega)
        · simpa using hd
        · unfold firstDiff
          rw [if_pos rfl]
          simpa using hfd
      · refine ⟨0, by simp, by omega, by simpa using hxy, ?_⟩
        unfold firstDiff
        rw [if_neg hxy]
        rfl

theorem mem_listPairs {α : Type} {l : List α} {x y : α} :
    (x, y) ∈ listPairs l ↔
      ∃ i j, ∃ (hi : i < l.length) (hj : j < l.length), i < j ∧
        x = l.get ⟨i, hi⟩ ∧ y = l.get ⟨j, hj⟩ := by
  induction l with
  | nil =>
    constructor
    · intro h
      cases h
    · rintro ⟨i, j, hi, hj, _⟩
      simp at hj
  | cons z rest ih =>
    constructor
    · intro h
      unfold listPairs at h
      rcases List.mem_append.mp h with h1 | h1
      · rw [List.mem_map] at h1
        obtain ⟨w, hw, heq⟩ := h1
        obtain ⟨rfl, rfl⟩ := Prod.mk.injEq .. |>.mp heq
        obtain ⟨⟨jr, hjr⟩, hg⟩ := List.mem_iff_get.mp hw
        refine ⟨0, jr + 1, by simp, by simpa using hjr, by omega, rfl, ?_⟩
        rw [← hg]
        rfl
      · obtain ⟨i, j, hi, hj, hij, hx, hy⟩ := ih.mp h1
        exact ⟨i + 1, j + 1, by simpa using hi, by simpa using hj, by omega, hx, hy⟩
    · rintro ⟨i, j, hi, hj, hij, hx, hy⟩
      unfold listPairs
      rw [List.mem_append]
      match i, j with
      | 0, j' + 1 =>
        left
        rw [List.mem_map]
        refine ⟨y, ?_, ?_⟩
        · have : y = rest.get ⟨j', by simpa using hj⟩ := hy
          rw [this]
          exact List.get_mem rest _ _
        · rw [hx]
          rfl
      | i' + 1, j' + 1 =>
        right
        exact ih.mpr ⟨i', j', by simpa using hi, by simpa using hj, by omega, hx, hy⟩

/-- C4: for every pair of distinct triangles in any collision group, the
decider records exactly the mutual constraint of the first canonical position
where the two aligned original triples differ (no constraint from any later
differing position), records nothing for pairs with identical triples, and
every recorded constraint arises this way from some ordered pair of a
collision group. -/
theorem decide_on_unfusions_first_diff (ibs : List IndexBuffer)
    (f2b : List (List Ref)) (cm : CollisionMap) :
    (∀ t1 t2 : Nat × Tri, alignedOriginals f2b t1 = alignedOriginals f2b t2 →
      pairConstraints f2b t1 t2 = []) ∧
    (∀ t1 t2 : Nat × Tri, alignedOriginals f2b t1 ≠ alignedOriginals f2b t2 →
      ∃ p, p < 3 ∧
        (∀ q, q < p → (alignedOriginals f2b t1).getD q (0, 0) =
          (alignedOriginals f2b t2).getD q (0, 0)) ∧
        (alignedOriginals f2b t1).getD p (0, 0) ≠
          (alignedOriginals f2b t2).getD p (0, 0) ∧
        pairConstraints f2b t1 t2 =
          [((alignedOriginals f2b t1).getD p (0, 0),
            (alignedOriginals f2b t2).getD p (0, 0)),
           ((alignedOriginals f2b t2).getD p (0, 0),
            (alignedOriginals f2b t1).getD p (0, 0))]) ∧
    (∀ A B : Ref, (A, B) ∈ decide_on_unfusions ibs f2b cm ↔
      ∃ k ts, (k, ts) ∈ cm ∧ ∃ i j, ∃ (hi : i < ts.length) (hj : j < ts.length),
        i < j ∧ (A, B) ∈ pairConstraints f2b (ts.get ⟨i, hi⟩) (ts.get ⟨j, hj⟩)) := by
  refine ⟨?_, ?_, ?_⟩
  · intro t1 t2 heq
    unfold pairConstraints
    rw [heq, firstDiff_eq_none]
  · intro t1 t2 hne
    obtain ⟨p, hp, hq, hd, hfd⟩ := firstDiff_ne (alignedOriginals f2b t1)
      (alignedOriginals f2b t2)
      (by rw [alignedOriginals_length, alignedOriginals_length]) hne
    rw [alignedOriginals_length] at hp
    refine ⟨p, hp, hq, hd, ?_⟩
    unfold pairConstraints
    rw [hfd]
  · intro A B
    unfold decide_on_unfusions
    rw [List.mem_flatMap]
    constructor
    · rintro ⟨kts, hkts, hmem⟩
      rw [List.mem_flatMap] at hmem
      obtain ⟨pr, hpr, hc⟩ := hmem
      have hpr' : (pr.1, pr.2) ∈ listPairs kts.2 := hpr
      obtain ⟨i, j, hi, hj, hij, hx, hy⟩ := mem_listPairs.mp hpr'
      exact ⟨kts.1, kts.2, hkts, i, j, hi, hj, hij, by rw [← hx, ← hy]; exact hc⟩
    · rintro ⟨k, ts, hkts, i, j, hi, hj, hij, hc⟩
      refine ⟨(k, ts), hkts, ?_⟩
      rw [List.mem_flatMap]
      exact ⟨(ts.get ⟨i, hi⟩, ts.get ⟨j, hj⟩),
        mem_listPairs.mpr ⟨i, j, hi, hj, hij, rfl, rfl⟩, hc⟩

end VF

namespace VF

/-- C4 witness: in the ABC / A'B'C scenario, the two colliding triangles'
aligned triples first differ at position 0, yielding exactly the mutual
constraint between A and A'. -/
theorem decide_on_unfusions_first_diff_witness :
    ∃ p, p < 3 ∧
      (∀ q, q < p →
        (alignedOriginals (fuse_adjacent_vertices [abcVB]).fusedToBuf
          (0, ((0, 1, 2) : Tri))).getD q (0, 0) =
        (alignedOriginals (fuse_adjacent_vertices [abcVB]).fusedToBuf
          (0, ((2, 3, 4) : Tri))).getD q (0, 0)) ∧
      (alignedOriginals (fuse_adjacent_vertices [abcVB]).fusedToBuf
        (0, ((0, 1, 2) : Tri))).getD p (0, 0) ≠
        (alignedOriginals (fuse_adjacent_vertices [abcVB]).fusedToBuf
          (0, ((2, 3, 4) : Tri))).getD p (0, 0) ∧
      pairConstraints (fuse_adjacent_vertices [abcVB]).fusedToBuf
          (0, ((0, 1, 2) : Tri)) (0, ((2, 3, 4) : Tri)) =
        [((alignedOriginals (fuse_adjacent_vertices [abcVB]).fusedToBuf
            (0, ((0, 1, 2) : Tri))).getD p (0, 0),
          (alignedOriginals (fuse_adjacent_vertices [abcVB]).fusedToBuf
            (0, ((2, 3, 4) : Tri))).getD p (0, 0)),
         ((alignedOriginals (fuse_adjacent_vertices [abcVB]).fusedToBuf
            (0, ((2, 3, 4) : Tri))).getD p (0, 0),
          (alignedOriginals (fuse_adjacent_vertices [abcVB]).fusedToBuf
            (0, ((0, 1, 2) : Tri))).getD p (0, 0))] :=
  (decide_on_unfusions_first_diff [abcIB] (fuse_adjacent_vertices [abcVB]).fusedToBuf
    (detect_fully_fused_triangles [abcIB] (fuse_adjacent_vertices [abcVB]).fusedToBuf
      (fuse_adjacent_vertices [abcVB]).bufToFused)).2.1
    (0, ((0, 1, 2) : Tri)) (0, ((2, 3, 4) : Tri)) (by decide)

end VF
